import Mathlib

/-!
Verification of the text-sanitization / red-flag-detection core of the
catphishing-awareness demo (source: src/l4.py).

Strings are modelled as `List Char` / `String`.  Python's `re.sub` for the
three PII patterns (EMAIL_RE, PHONE_RE, URL_RE), the sensitive-term
stripper, and the word-boundary searches of `detect_red_flags` are given
as executable Lean functions implementing the leftmost, non-overlapping,
greedy-with-backtracking semantics of the concrete patterns.  Character
classes are the ASCII classes written in the patterns (the source never
relies on non-ASCII semantics of `\d`, `\s`, `\w`, which we model as their
ASCII restrictions).  `html.unescape` is modelled for decimal and
hexadecimal character references and a small table of named entities
(`amp`, `lt`, `gt`, `quot`, with and without trailing semicolon); the
theorems below only evaluate it on these modelled references or on
ampersand-free strings, where it agrees with the Python function.
-/

/-- Length of the maximal prefix of `l` whose characters all satisfy `p`
(the greedy run of a regex character class). -/
def takeRun (p : Char → Bool) : List Char → Nat
  | [] => 0
  | c :: l => if p c then takeRun p l + 1 else 0

/-- `afterLit pat l` returns the remainder of `l` after the literal `pat`
when `pat` is an initial segment of `l`, and `none` otherwise. -/
def afterLit : List Char → List Char → Option (List Char)
  | [], l => some l
  | _ :: _, [] => none
  | a :: p, b :: l => if a = b then afterLit p l else none

/-- Generic model of Python `re.sub(pattern, tok, ·)` for a matcher `m`,
where `m l` returns the length of the (unique, greedy) match of the
pattern at the head of `l`, if any.  The scan emits unmatched characters
one by one and replaces each leftmost non-overlapping match by `tok`,
resuming after the match.  The recursion is driven by a fuel argument
(so that it is structural and computes in the kernel); each step
consumes at least one character, so fuel `l.length` always suffices and
the fuel-exhausted branch is dead code.  All matchers used here return
positive lengths, so the `some 0` case falls into the catch-all. -/
def subAllF (m : List Char → Option Nat) (tok : List Char) : Nat → List Char → List Char
  | _, [] => []
  | 0, l => l
  | fuel + 1, c :: rest =>
    match m (c :: rest) with
    | some (n + 1) => tok ++ subAllF m tok fuel (List.drop n rest)
    | _ => c :: subAllF m tok fuel rest

def subAll (m : List Char → Option Nat) (tok : List Char) (l : List Char) : List Char :=
  subAllF m tok l.length l

/-- Character class `[a-zA-Z0-9.\-_+]` (the EMAIL_RE local part). -/
def isLocalChar (c : Char) : Bool :=
  c.isAlpha || c.isDigit || c = '.' || c = '-' || c = '_' || c = '+'

/-- Character class `[a-zA-Z0-9\-_]` (the EMAIL_RE first domain label). -/
def isDomChar (c : Char) : Bool :=
  c.isAlpha || c.isDigit || c = '-' || c = '_'

/-- Character class `[a-zA-Z0-9\-.]` (the EMAIL_RE domain tail). -/
def isTailChar (c : Char) : Bool :=
  c.isAlpha || c.isDigit || c = '-' || c = '.'

/-- Final stage of the email match: the nonempty domain-tail run after
the literal dot, added to the length `a + 1 + b + 1` already consumed. -/
def emailTail (a b : Nat) (r3 : List Char) : Option Nat :=
  if takeRun isTailChar r3 = 0 then none
  else some (a + 1 + b + 1 + takeRun isTailChar r3)

/-- Middle stage of the email match: the nonempty first domain label,
then the literal dot, on the text `r2` after the `@`. -/
def emailDom (a : Nat) (r2 : List Char) : Option Nat :=
  if takeRun isDomChar r2 = 0 then none else
  match r2.drop (takeRun isDomChar r2) with
  | '.' :: r3 => emailTail a (takeRun isDomChar r2) r3
  | _ => none

/-- Match of `EMAIL_RE = [a-zA-Z0-9.\-_+]+@[a-zA-Z0-9\-_]+\.[a-zA-Z0-9\-.]+`
at the head of `l`: each `+`-run is maximal (the character following each
run is not in its class, and differs from the following literal, so the
backtracking engine commits to the maximal run). -/
def emailMatch (l : List Char) : Option Nat :=
  if takeRun isLocalChar l = 0 then none else
  match l.drop (takeRun isLocalChar l) with
  | '@' :: r2 => emailDom (takeRun isLocalChar l) r2
  | _ => none

/-- Character class `[\d\s\-\(\)]` of PHONE_RE's middle run
(ASCII digits and whitespace). -/
def isPhoneChar (c : Char) : Bool :=
  c.isDigit || c.isWhitespace || c = '-' || c = '(' || c = ')'

/-- Index of the last ASCII digit of `l`, if any. -/
def lastDigitIdx : List Char → Option Nat
  | [] => none
  | c :: r =>
    match lastDigitIdx r with
    | some k => some (k + 1)
    | none => if c.isDigit then some 0 else none

/-- Final stage of the phone match: the backtracked `{6,}` length `k`
(position of the last digit of the class run). -/
def phoneAfter (k : Nat) : Option Nat :=
  if 6 ≤ k then some (1 + k + 1) else none

/-- Match of `\d[\d\s\-\(\)]{6,}\d` at the head of `l` (PHONE_RE without
its optional leading `+`).  The `{6,}` quantifier is greedy, then
backtracks until the final `\d` can match, i.e. it stops at the last
digit of the maximal class run, provided at least 6 characters precede
that digit inside the run. -/
def phoneCore (l : List Char) : Option Nat :=
  match l with
  | [] => none
  | d :: r =>
    if d.isDigit then
      match lastDigitIdx (r.take (takeRun isPhoneChar r)) with
      | some k => phoneAfter k
      | none => none
    else none

/-- Match of `PHONE_RE = (\+?\d[\d\s\-\(\)]{6,}\d)` at the head of `l`.
If the head is `+` the rest must match the core (a bare `+` cannot start
the no-plus alternative, whose first character must be a digit). -/
def phoneMatch (l : List Char) : Option Nat :=
  match l with
  | '+' :: r => (phoneCore r).map (· + 1)
  | _ => phoneCore l

/-- `\S+` after a literal URL scheme of length `pre`: the maximal nonempty
run of non-whitespace characters. -/
def nonspaceTail (pre : Nat) (r : List Char) : Option Nat :=
  if takeRun (fun c => !c.isWhitespace) r = 0 then none
  else some (pre + takeRun (fun c => !c.isWhitespace) r)

def httpsLit : List Char := "https://".data
def httpLit : List Char := "http://".data
def wwwLit : List Char := "www.".data

/-- Match of `URL_RE = https?://\S+|www\.\S+` at the head of `l`.  The
greedy `s?` is equivalent to trying the literal `https://` before
`http://`; the alternatives have pairwise-incompatible prefixes, so the
order of the remaining tries is immaterial. -/
def urlMatch (l : List Char) : Option Nat :=
  match afterLit httpsLit l with
  | some r => nonspaceTail 8 r
  | none =>
    match afterLit httpLit l with
    | some r => nonspaceTail 7 r
    | none =>
      match afterLit wwwLit l with
      | some r => nonspaceTail 4 r
      | none => none

def emailTok : List Char := "[REDACTED_EMAIL]".data
def phoneTok : List Char := "[REDACTED_PHONE]".data
def urlTok : List Char := "[REDACTED_URL]".data

/-- ASCII hex digit. -/
def isHexDigit (c : Char) : Bool :=
  c.isDigit || ('a' ≤ c && c ≤ 'f') || ('A' ≤ c && c ≤ 'F')

def decDigitVal (c : Char) : Nat := c.toNat - 48

def hexDigitVal (c : Char) : Nat :=
  if c.isDigit then c.toNat - 48
  else if 'a' ≤ c && c ≤ 'f' then c.toNat - 87
  else c.toNat - 55

def decOfDigits (l : List Char) : Nat := l.foldl (fun a c => a * 10 + decDigitVal c) 0

def hexOfDigits (l : List Char) : Nat := l.foldl (fun a c => a * 16 + hexDigitVal c) 0

/-- `chr` for the modelled character references; invalid code points give
NUL (they never occur in the inputs any theorem evaluates). -/
def codeChar (n : Nat) : Char := Char.ofNat n

/-- The `;` after a reference is consumed when present (`;?`). -/
def semiExtra : List Char → Nat
  | ';' :: _ => 1
  | _ => 0

/-- Modelled entries of Python's html5 named-reference table, longest
name first for each entity (Python resolves `amp;` before `amp`). -/
def namedRefTable : List (List Char × Char) :=
  [("amp;".data, '&'), ("amp".data, '&'),
   ("lt;".data, '<'), ("lt".data, '<'),
   ("gt;".data, '>'), ("gt".data, '>'),
   ("quot;".data, '"'), ("quot".data, '"')]

def namedRefLookup : List (List Char × Char) → List Char → Option (List Char × Nat)
  | [], _ => none
  | (pat, ch) :: rest, r =>
    match afterLit pat r with
    | some _ => some ([ch], pat.length)
    | none => namedRefLookup rest r

/-- Parse one character reference right after an `&`: decimal `#digits;?`,
hexadecimal `#x…;?`, or a modelled named entity.  Returns the replacement
characters and the number of input characters consumed after the `&`. -/
def charref (r : List Char) : Option (List Char × Nat) :=
  match r with
  | '#' :: r2 =>
    let ds := takeRun Char.isDigit r2
    if ds = 0 then
      match r2 with
      | x :: r3 =>
        if x = 'x' || x = 'X' then
          let hs := takeRun isHexDigit r3
          if hs = 0 then none
          else some ([codeChar (hexOfDigits (r3.take hs))], 2 + hs + semiExtra (r3.drop hs))
        else none
      | [] => none
    else some ([codeChar (decOfDigits (r2.take ds))], 1 + ds + semiExtra (r2.drop ds))
  | r => namedRefLookup namedRefTable r

/-- Model of Python `html.unescape`, scanning left to right and replacing
each character reference; an `&` that starts no reference is kept and the
scan resumes after it (as Python's `re.sub`-based implementation does).
Fuel-driven like `subAllF`; fuel `l.length` always suffices. -/
def unescapeF : Nat → List Char → List Char
  | _, [] => []
  | 0, l => l
  | fuel + 1, c :: rest =>
    if c = '&' then
      match charref rest with
      | some (out, n) => out ++ unescapeF fuel (List.drop n rest)
      | none => c :: unescapeF fuel rest
    else c :: unescapeF fuel rest

def unescapeL (l : List Char) : List Char := unescapeF l.length l

/-- The three `re.sub` passes of `sanitize_text`, in source order:
email, then phone, then URL. -/
def pySubs (l : List Char) : List Char :=
  subAll urlMatch urlTok (subAll phoneMatch phoneTok (subAll emailMatch emailTok l))

/-- `sanitize_text` (src/l4.py lines 40-46): empty input gives `""`;
otherwise HTML-unescape, then substitute the EMAIL, PHONE and URL
patterns by their redaction tokens. -/
def sanitize_text (s : String) : String :=
  if s = "" then "" else String.mk (pySubs (unescapeL s.data))

/-! ## Sensitive-term stripper (src/l4.py lines 217-222)

`re.sub(r"(password|otp|pin|bank|account|card|cvv)", "[REDACTED_SENSITIVE]",
user_input, flags=re.I)`, guarded by `re.search` of the same alternation on
`user_input.lower()`.  A case-insensitive ASCII comparison of a lowercase
pattern character against a text character is `pattern = toLower text`,
which is also exactly a plain comparison against the lowered copy, so one
matcher serves both the guard and the substitution. -/

def apos : Char := Char.ofNat 39

def sensTerms : List (List Char) :=
  ["password".data, "otp".data, "pin".data, "bank".data,
   "account".data, "card".data, "cvv".data]

/-- Case-insensitive test that `pat` (lowercase letters) is an initial
segment of `l`. -/
def ciPre : List Char → List Char → Bool
  | [], _ => true
  | _ :: _, [] => false
  | a :: p, b :: l => (a = Char.toLower b) && ciPre p l

/-- First alternative of the ordered alternation matching at the head of
`l` (Python alternation is ordered), with its length. -/
def firstCi : List (List Char) → List Char → Option Nat
  | [], _ => none
  | t :: ts, l => if ciPre t l then some t.length else firstCi ts l

def sensMatch (l : List Char) : Option Nat := firstCi sensTerms l

def sensTok : List Char := "[REDACTED_SENSITIVE]".data

/-- `re.search` of the sensitive alternation: some alternative matches at
some position. -/
def sensAnywhere : List Char → Bool
  | [] => false
  | c :: r => (sensMatch (c :: r)).isSome || sensAnywhere r

/-- The outbound-input stripper of the send handler: substitute only when
the guard search fires (equivalently: always, but mirroring the source's
branch). -/
def stripSensitive (s : String) : String :=
  if sensAnywhere s.data then String.mk (subAll sensMatch sensTok s.data) else s

/-! ## Red-flag detector (src/l4.py lines 121-130) -/

def lowerL (l : List Char) : List Char := l.map Char.toLower

/-- `\w` of Python `re` (ASCII restriction). -/
def isWordChar (c : Char) : Bool := c.isAlpha || c.isDigit || c = '_'

/-- Word boundary `\b` before a word character, given the preceding
character (`none` at the start of the text). -/
def boundaryOk : Option Char → Bool
  | Option.none => true
  | some c => !isWordChar c

/-- Word boundary `\b` after a word character, given the rest of the
text. -/
def afterOk : List Char → Bool
  | [] => true
  | c :: _ => !isWordChar c

/-- Some literal alternative occurs at the head of `t` with a word
boundary after it (every alternative used here starts and ends with a
word character). -/
def hitAt (alts : List (List Char)) (t : List Char) : Bool :=
  alts.any fun pat =>
    match afterLit pat t with
    | some r => afterOk r
    | none => false

def wordSearchAux (alts : List (List Char)) : Option Char → List Char → Bool
  | _, [] => false
  | prev, c :: rest => (boundaryOk prev && hitAt alts (c :: rest)) || wordSearchAux alts (some c) rest

/-- `re.search(r"\b(alt|…)\b", t)` for literal alternatives. -/
def wordOccurs (alts : List (List Char)) (t : List Char) : Bool :=
  wordSearchAux alts none t

/-- The `.*` region of `send .* rupees` followed by the literal
`" rupees"` and a trailing `\b`; `.` matches anything but a newline. -/
def rupeesFrom : List Char → Bool
  | [] => false
  | c :: rest =>
    (match afterLit " rupees".data (c :: rest) with
     | some r => afterOk r
     | none => false) || (!(c = '\n') && rupeesFrom rest)

def sendRupeesAt (t : List Char) : Bool :=
  match afterLit "send ".data t with
  | some r => rupeesFrom r
  | none => false

/-- `re.search` of the `send .* rupees` alternative with its leading
`\b`. -/
def sendSearchAux : Option Char → List Char → Bool
  | _, [] => false
  | prev, c :: rest => (boundaryOk prev && sendRupeesAt (c :: rest)) || sendSearchAux (some c) rest

def photoAlts : List (List Char) := ["selfie".data, "photo".data, "picture".data]
def moneyAlts : List (List Char) := ["money".data, "transfer".data, "wallet".data, "pay".data]
def videoAlts : List (List Char) :=
  ["can".data ++ [apos] ++ "t video".data, "camera broken".data, "no video".data,
   "can".data ++ [apos] ++ "t call".data, "avoid video".data, "no camera".data]
def privateAlts : List (List Char) :=
  ["whatsapp".data, "telegram".data, "private chat".data, "dm me".data,
   "message me privately".data]
def affectionAlts : List (List Char) :=
  ["love you".data, "i love you".data, "miss you".data, "so sweet".data,
   "so beautiful".data]
def sensitiveAlts : List (List Char) :=
  ["password".data, "otp".data, "one-time".data, "pin".data, "bank".data,
   "account".data]

def flagPhoto : String := "Asks for personal photo/selfie"
def flagMoney : String := "Asks for money/transfer"
def flagVideo : String := "Avoids live verification/video call"
def flagPrivate : String := "Wants to move chat to private app"
def flagAffection : String := "Fast affection / emotional push"
def flagCritical : String := "Sensitive data request (password/OTP/bank) - CRITICAL"

/-- The critical flag as the specification writes it, with an em-dash
(U+2014) before CRITICAL instead of the source's ASCII hyphen. -/
def specCriticalFlag : String :=
  "Sensitive data request (password/OTP/bank) " ++ String.mk [Char.ofNat 8212] ++ " CRITICAL"

def allFlags : List String :=
  [flagPhoto, flagMoney, flagVideo, flagPrivate, flagAffection, flagCritical]

/-- `detect_red_flags` (src/l4.py lines 121-130): lower-case the text,
evaluate the six rules in order, appending each rule's flag when its
search fires.  Rule 2's alternation `money|transfer|send .* rupees|
wallet|pay` is split into its literal alternatives and the `send .*
rupees` search (a `re.search` fires iff some alternative matches at some
position, so the split is equivalent to the single alternation). -/
def detect_red_flags (text : String) : List String :=
  let t := lowerL text.data
  (if wordOccurs photoAlts t then [flagPhoto] else []) ++
  (if wordOccurs moneyAlts t || sendSearchAux none t then [flagMoney] else []) ++
  (if wordOccurs videoAlts t then [flagVideo] else []) ++
  (if wordOccurs privateAlts t then [flagPrivate] else []) ++
  (if wordOccurs affectionAlts t ∧ t.length < 120 then [flagAffection] else []) ++
  (if wordOccurs sensitiveAlts t then [flagCritical] else [])

/-! ## Dynamic Python values and the few-shot normalizer
(src/l4.py lines 72-92)

Records come from `json.loads` of dataset lines, so mappings have string
keys and values are JSON-style data; `PyVal` covers exactly those shapes
(a Python tuple is modelled as a list, which `isinstance(t, (list,
tuple))` treats identically here).  Fallible dynamic operations return
`Except PyErr`. -/

inductive PyVal where
  | str (s : String)
  | int (n : Int)
  | bool (b : Bool)
  | none
  | list (l : List PyVal)
  | dict (entries : List (String × PyVal))

inductive PyErr where
  | typeError
  | attributeError
  | indexError
deriving DecidableEq

/-- Python truthiness of the modelled values. -/
def pyTruthy : PyVal → Bool
  | .str s => !(s == "")
  | .int n => !(n == 0)
  | .bool b => b
  | .none => false
  | .list l => !l.isEmpty
  | .dict d => !d.isEmpty

/-- `k in d` / `d[k]` on a dict (keys are unique in a Python dict; on the
association list the first binding wins). -/
def pyLookup (d : List (String × PyVal)) (k : String) : Option PyVal :=
  match d.find? (fun e => e.1 == k) with
  | some e => some e.2
  | Option.none => Option.none

/-- `d.get(k, dflt)`. -/
def pyGetD (d : List (String × PyVal)) (k : String) (dflt : PyVal) : PyVal :=
  (pyLookup d k).getD dflt

/-- Python `str.capitalize`: first character upper-cased, the remainder
lower-cased (ASCII). -/
def capStr (s : String) : String :=
  match s.data with
  | [] => ""
  | c :: r => String.mk (Char.toUpper c :: r.map Char.toLower)

/-- Python `str.title` (ASCII), as the specification's phrase
"title-cased" denotes: each letter run starts upper-case, its remaining
letters lower-cased.  Used only to compare the specified behaviour with
the source's `capitalize`. -/
def titleAux : Bool → List Char → List Char
  | _, [] => []
  | prevAlpha, c :: r =>
    (if c.isAlpha then (if prevAlpha then Char.toLower c else Char.toUpper c) else c)
      :: titleAux c.isAlpha r

def titleCaseSpec (s : String) : String := String.mk (titleAux false s.data)

/-- `sanitize_text` applied to a dynamic value: falsy values short-circuit
to `""` (the `if not s` guard), truthy strings are sanitized, and any
truthy non-string raises in `html.unescape`. -/
def pySanitizeVal (v : PyVal) : Except PyErr String :=
  if pyTruthy v then
    match v with
    | .str s => .ok (sanitize_text s)
    | _ => .error .typeError
  else .ok ""

/-- `sp.capitalize()` on a dynamic value: non-strings have no
`capitalize` attribute. -/
def pyCapOf : PyVal → Except PyErr String
  | .str s => .ok (capStr s)
  | _ => .error .attributeError

mutual
/-- Python `repr` restricted to the modelled values (string quoting uses
the single-quote character; escaping inside strings is not modelled — no
theorem depends on it). -/
def pyRepr : PyVal → String
  | .str s => String.mk [apos] ++ s ++ String.mk [apos]
  | .int n => toString n
  | .bool b => if b then "True" else "False"
  | .none => "None"
  | .list l => "[" ++ pyReprList l ++ "]"
  | .dict d => "\x7b" ++ pyReprDict d ++ "\x7d"

def pyReprList : List PyVal → String
  | [] => ""
  | [x] => pyRepr x
  | x :: y :: xs => pyRepr x ++ ", " ++ pyReprList (y :: xs)

def pyReprDict : List (String × PyVal) → String
  | [] => ""
  | [e] => String.mk [apos] ++ e.1 ++ String.mk [apos] ++ ": " ++ pyRepr e.2
  | e :: e2 :: es =>
    String.mk [apos] ++ e.1 ++ String.mk [apos] ++ ": " ++ pyRepr e.2 ++ ", " ++ pyReprDict (e2 :: es)
end

/-- Python `str()` of the modelled values (`str` of a container is its
`repr`). -/
def pyStr : PyVal → String
  | .str s => s
  | .int n => toString n
  | .bool b => if b then "True" else "False"
  | .none => "None"
  | .list l => pyRepr (.list l)
  | .dict d => pyRepr (.dict d)

mutual
/-- `json.dumps` restricted to the modelled values (default separators;
string escaping not modelled — no theorem depends on it). -/
def jsonDumps : PyVal → String
  | .str s => "\"" ++ s ++ "\""
  | .int n => toString n
  | .bool b => if b then "true" else "false"
  | .none => "null"
  | .list l => "[" ++ jsonList l ++ "]"
  | .dict d => "\x7b" ++ jsonDict d ++ "\x7d"

def jsonList : List PyVal → String
  | [] => ""
  | [x] => jsonDumps x
  | x :: y :: xs => jsonDumps x ++ ", " ++ jsonList (y :: xs)

def jsonDict : List (String × PyVal) → String
  | [] => ""
  | [e] => "\"" ++ e.1 ++ "\": " ++ jsonDumps e.2
  | e :: e2 :: es => "\"" ++ e.1 ++ "\": " ++ jsonDumps e.2 ++ ", " ++ jsonDict (e2 :: es)
end

/-- `t.get("text", "") or t.get("message", "")`. -/
def pyTextOf (d : List (String × PyVal)) : PyVal :=
  let a := pyGetD d "text" (.str "")
  if pyTruthy a then a else pyGetD d "message" (.str "")

/-- One dialogue turn of `make_example_from_record`: mapping turns read
`speaker`/`text`/`message`, sequence turns read `t[0]`/`t[1]` (an
out-of-range index raises), anything else is stringified with speaker
`"scammer"`.  The text is sanitized before the f-string evaluates
`sp.capitalize()`, so a sanitize error precedes a capitalize error, as in
the source. -/
def renderTurn : PyVal → Except PyErr String
  | .dict d =>
    match pySanitizeVal (pyTextOf d) with
    | .error e => .error e
    | .ok tx =>
      match pyCapOf (pyGetD d "speaker" (.str "scammer")) with
      | .error e => .error e
      | .ok sp => .ok (sp ++ ": " ++ tx)
  | .list (a :: b :: _) =>
    match pySanitizeVal b with
    | .error e => .error e
    | .ok tx =>
      match pyCapOf a with
      | .error e => .error e
      | .ok sp => .ok (sp ++ ": " ++ tx)
  | .list _ => .error .indexError
  | t => .ok ("Scammer: " ++ sanitize_text (pyStr t))

def truncate400 (s : String) : String := String.mk (s.data.take 400)

/-- `make_example_from_record` (src/l4.py lines 72-92). -/
def make_example_from_record (rec : List (String × PyVal)) : Except PyErr String :=
  match pyLookup rec "dialogue" with
  | some (.list dlg) =>
    match (dlg.take 6).mapM renderTurn with
    | .error e => .error e
    | .ok turns => .ok (String.intercalate "\n" turns)
  | _ =>
    match pyLookup rec "text" with
    | some v =>
      match pySanitizeVal v with
      | .error e => .error e
      | .ok s => .ok (truncate400 s)
    | Option.none =>
      match pyLookup rec "message" with
      | some v =>
        match pySanitizeVal v with
        | .error e => .error e
        | .ok s => .ok (truncate400 s)
      | Option.none => .ok (truncate400 (sanitize_text (jsonDumps (.dict rec))))

/-- A value that is either a string or falsy: exactly the values
`sanitize_text` accepts without raising. -/
def strOrFalsy : PyVal → Bool
  | .str _ => true
  | v => !pyTruthy v

/-- Dialogue turns on which `renderTurn` cannot raise. -/
def goodTurn : PyVal → Bool
  | .dict d =>
    (match pyGetD d "speaker" (.str "scammer") with
     | .str _ => true
     | _ => false) && strOrFalsy (pyTextOf d)
  | .list (a :: b :: _) =>
    (match a with
     | .str _ => true
     | _ => false) && strOrFalsy b
  | .list _ => false
  | _ => true

/-- Records on which `make_example_from_record` cannot raise. -/
def goodRecord (rec : List (String × PyVal)) : Bool :=
  match pyLookup rec "dialogue" with
  | some (.list dlg) => (dlg.take 6).all goodTurn
  | _ =>
    match pyLookup rec "text" with
    | some v => strOrFalsy v
    | Option.none =>
      match pyLookup rec "message" with
      | some v => strOrFalsy v
      | Option.none => true

/-- What `sanitize_text` yields on a string-or-falsy value. -/
def sanitizeOrEmpty : PyVal → String
  | .str s => sanitize_text s
  | _ => ""

/-- The underlying string of a string value (`""` otherwise). -/
def strOf : PyVal → String
  | .str s => s
  | _ => ""

/-- The string a good turn renders to (total companion of `renderTurn`). -/
def renderTurnSpec : PyVal → String
  | .dict d =>
    capStr (strOf (pyGetD d "speaker" (.str "scammer"))) ++ ": " ++
      sanitizeOrEmpty (pyTextOf d)
  | .list (a :: b :: _) => capStr (strOf a) ++ ": " ++ sanitizeOrEmpty b
  | .list _ => ""
  | t => "Scammer: " ++ sanitize_text (pyStr t)

/-! ## Few-shot sampling and prompt assembly
(src/l4.py lines 113-116 and 135-152)

`random.sample(pool, k)` (with `k = min(n, len(pool))`, so the call's
`0 ≤ k ≤ len(pool)` precondition always holds and it never raises) picks
`k` elements at pairwise-distinct positions; the drawn positions are
abstracted as an arbitrary index map `f`, injective for every actual
draw. -/

def pySample (pool : List String) (k : Nat) (f : Fin k → Fin pool.length) : List String :=
  (List.finRange k).map fun i => pool.get (f i)

/-- `build_few_shots` (src/l4.py lines 113-116). -/
def build_few_shots (pool : List String) (n : Nat)
    (f : Fin (min n pool.length) → Fin pool.length) : String :=
  String.intercalate "\n\n" (pySample pool (min n pool.length) f)

def system_rules : String :=
  "You are a simulation persona for awareness training. NEVER request or accept passwords, OTPs, bank details, or any PII." ++
  " ALWAYS prefix simulated attacker responses with [SIMULATION] and defender messages with [DEFENDER MODE]."

def personaAttacker : String :=
  "Role: You are roleplaying a fake persona (catphisher) named " ++ String.mk [apos] ++
  "Lizzy" ++ String.mk [apos] ++ " for training only. " ++
  "Simulate typical catphishing behaviour (fast affection, requests to move chat, avoidance of video)."

def personaDefender : String :=
  "Role: You are a Defender Assistant. Analyze the incoming message, list up to 3 red flags, propose 2 safe replies, and give reporting steps. Begin with [DEFENDER MODE]."

/-- `build_prompt` (src/l4.py lines 135-152). -/
def build_prompt (mode user_message : String) (pool : List String) (fsc : Nat)
    (f : Fin (min fsc pool.length) → Fin pool.length) : String :=
  let persona := if mode = "Catphisher" then personaAttacker else personaDefender
  system_rules ++ "\n" ++ persona ++ "\nFEW-SHOT EXAMPLES:\n" ++
    build_few_shots pool fsc f ++ "\n\nUser message:\n" ++ user_message ++ "\n\nResponse:"

/-! ## Session chat history (src/l4.py lines 176-182, 204-240)

States are the stored `chat_history`; transitions are the initial
greeting, the Clear button, and a completed Send round-trip, which stores
the stripped user message and the model reply re-prefixed with a marker
when it lacks one.  Timestamps and the raw reply are arbitrary. -/

def startsWithL (p s : String) : Bool := (afterLit p.data s.data).isSome

structure Turn where
  role : String
  text : String
  ts : String

def greetingText : String :=
  "[SIMULATION] Hello! This is a catphishing simulation demo. Send a message in Tenglish or English."

/-- The caller-side marker enforcement of the send handler
(src/l4.py lines 233-234). -/
def enforceMarker (ai : String) : String :=
  if startsWithL "[SIMULATION]" ai || startsWithL "[DEFENDER MODE]" ai then ai
  else "[SIMULATION] " ++ ai

inductive Reachable : List Turn → Prop where
  | init (ts : String) : Reachable [⟨"bot", greetingText, ts⟩]
  | clear {h : List Turn} : Reachable h → Reachable []
  | send {h : List Turn} (u ai ts1 ts2 : String) : Reachable h →
      Reachable (h ++ [⟨"user", stripSensitive u, ts1⟩, ⟨"bot", enforceMarker ai, ts2⟩])

/-- A chat state in which every bot turn carries a marker. -/
def BotMarked (h : List Turn) : Prop :=
  ∀ t ∈ h, t.role = "bot" →
    startsWithL "[SIMULATION]" t.text = true ∨ startsWithL "[DEFENDER MODE]" t.text = true

/-- No match of `m` at any position of `l` (a fixed point of
`subAll m tok`); the positions of `l` are its suffixes. -/
def CleanFor (m : List Char → Option Nat) (l : List Char) : Prop :=
  ∀ t, t <:+ l → m t = none

/-- `'&'`-free strings: `html.unescape` is the identity on them. -/
def noAmp (l : List Char) : Prop := '&' ∉ l

/-- Certifies that the email pattern fails at the head of `x ++ w` for
every `w`: the local run stops inside `x` and the following character is
not `@`.  True of every nonempty suffix of the substitution tokens. -/
def emailBlockedAt (x : List Char) : Bool :=
  decide (takeRun isLocalChar x < x.length) &&
    (match x.drop (takeRun isLocalChar x) with
     | c :: _ => !(c = '@')
     | [] => false)

/-- A mismatch between `t` and `x` within their common length, so `t` is
not a case-insensitive initial segment of `x ++ w` for any `w`. -/
def ciBlocked : List Char → List Char → Bool
  | [], _ => false
  | _ :: _, [] => false
  | a :: t, b :: x => !(a = Char.toLower b) || ciBlocked t x

/-- Every sensitive term mismatches `x` within the common length. -/
def sensBlockedAt (x : List Char) : Bool :=
  sensTerms.all fun t => ciBlocked t x

/-- Relation between a list and its image under one `subAll` pass: either
unchanged, or the two agree up to the first replaced match, whose head
`d` (a position where `m'` matched) is replaced by the `'['` that opens
the substitution token. -/
def DivergeW (m' : List Char → Option Nat) (u v : List Char) : Prop :=
  v = u ∨ ∃ w d z z', u = w ++ d :: z ∧ v = w ++ '[' :: z' ∧ ∃ n, m' (d :: z) = some n

/-! # Theorems -/

/-! ## Runs, literals and the generic substitution -/

theorem takeRun_nil (p : Char → Bool) : takeRun p [] = 0 := rfl

theorem takeRun_cons (p : Char → Bool) (c : Char) (l : List Char) :
    takeRun p (c :: l) = if p c then takeRun p l + 1 else 0 := rfl

theorem takeRun_le_length (p : Char → Bool) (l : List Char) : takeRun p l ≤ l.length := by
  induction l with
  | nil => simp [takeRun]
  | cons c l ih => by_cases h : p c <;> simp [takeRun, h] <;> omega

theorem takeRun_append (p : Char → Bool) (u v : List Char) :
    takeRun p (u ++ v) =
      if takeRun p u = u.length then u.length + takeRun p v else takeRun p u := by
  induction u with
  | nil => simp [takeRun]
  | cons c u ih =>
    by_cases h : p c
    · have hle := takeRun_le_length p u
      by_cases h2 : takeRun p u = u.length <;>
        simp [takeRun, h, ih, h2, List.length_cons] <;> omega
    · simp [takeRun, h, List.length_cons]

theorem takeRun_terminator (p : Char → Bool) (l : List Char)
    (h : takeRun p l < l.length) :
    ∃ c r, l.drop (takeRun p l) = c :: r ∧ p c = false := by
  induction l with
  | nil => simp at h
  | cons c l ih =>
    by_cases hp : p c
    · rw [takeRun_cons, if_pos hp] at h ⊢
      rw [List.drop_succ_cons]
      exact ih (by simp at h; omega)
    · exact ⟨c, l, by simp [takeRun, hp], by simp [hp]⟩

theorem subAllF_irrel (m : List Char → Option Nat) (tok : List Char) :
    ∀ fuel fuel2 l, l.length ≤ fuel → l.length ≤ fuel2 →
      subAllF m tok fuel l = subAllF m tok fuel2 l := by
  intro fuel
  induction fuel with
  | zero =>
    intro fuel2 l hl _
    cases l with
    | nil => cases fuel2 <;> rfl
    | cons c rest => simp at hl
  | succ fuel ih =>
    intro fuel2 l hl hl2
    cases l with
    | nil => cases fuel2 <;> rfl
    | cons c rest =>
      cases fuel2 with
      | zero => simp at hl2
      | succ fuel2 =>
        cases hm : m (c :: rest) with
        | none =>
          simp only [subAllF, hm]
          rw [ih fuel2 rest (by simp at hl; omega) (by simp at hl2; omega)]
        | some k =>
          cases k with
          | zero =>
            simp only [subAllF, hm]
            rw [ih fuel2 rest (by simp at hl; omega) (by simp at hl2; omega)]
          | succ n =>
            simp only [subAllF, hm]
            rw [ih fuel2 (rest.drop n)
              (by simp only [List.length_drop]; simp at hl; omega)
              (by simp only [List.length_drop]; simp at hl2; omega)]

theorem subAllF_fuel (m : List Char → Option Nat) (tok : List Char)
    (fuel : Nat) (l : List Char) (h : l.length ≤ fuel) :
    subAllF m tok fuel l = subAll m tok l :=
  subAllF_irrel m tok fuel l.length l h le_rfl

theorem subAll_nil (m : List Char → Option Nat) (tok : List Char) :
    subAll m tok [] = [] := rfl

theorem subAll_cons_some (m : List Char → Option Nat) (tok : List Char)
    (c : Char) (rest : List Char) (n : Nat) (h : m (c :: rest) = some (n + 1)) :
    subAll m tok (c :: rest) = tok ++ subAll m tok (rest.drop n) := by
  show subAllF m tok (rest.length + 1) (c :: rest) = _
  simp only [subAllF, h]
  rw [subAllF_fuel m tok rest.length (rest.drop n)
    (by simp only [List.length_drop]; omega)]

theorem subAll_cons_none (m : List Char → Option Nat) (tok : List Char)
    (c : Char) (rest : List Char) (h : m (c :: rest) = none) :
    subAll m tok (c :: rest) = c :: subAll m tok rest := by
  show subAllF m tok (rest.length + 1) (c :: rest) = _
  simp only [subAllF, h]
  rfl

theorem subAll_cons_zero (m : List Char → Option Nat) (tok : List Char)
    (c : Char) (rest : List Char) (h : m (c :: rest) = some 0) :
    subAll m tok (c :: rest) = c :: subAll m tok rest := by
  show subAllF m tok (rest.length + 1) (c :: rest) = _
  simp only [subAllF, h]
  rfl

theorem subAll_mem_aux (m : List Char → Option Nat) (tok : List Char) :
    ∀ N l, l.length ≤ N → ∀ a ∈ subAll m tok l, a ∈ l ∨ a ∈ tok := by
  intro N
  induction N with
  | zero =>
    intro l hl a ha
    cases l with
    | nil => rw [subAll_nil] at ha; simp at ha
    | cons c rest => simp at hl
  | succ N ih =>
    intro l hl a ha
    cases l with
    | nil => rw [subAll_nil] at ha; simp at ha
    | cons c rest =>
      cases hm : m (c :: rest) with
      | none =>
        rw [subAll_cons_none m tok c rest hm] at ha
        rcases List.mem_cons.mp ha with ha | ha
        · exact Or.inl (by simp [ha])
        · rcases ih rest (by simp at hl; omega) a ha with h | h
          · exact Or.inl (by simp [h])
          · exact Or.inr h
      | some k =>
        cases k with
        | zero =>
          rw [subAll_cons_zero m tok c rest hm] at ha
          rcases List.mem_cons.mp ha with ha | ha
          · exact Or.inl (by simp [ha])
          · rcases ih rest (by simp at hl; omega) a ha with h | h
            · exact Or.inl (by simp [h])
            · exact Or.inr h
        | succ n =>
          rw [subAll_cons_some m tok c rest n hm] at ha
          rcases List.mem_append.mp ha with ha | ha
          · exact Or.inr ha
          · rcases ih (rest.drop n) (by simp [List.length_drop] at hl ⊢; omega) a ha with h | h
            · exact Or.inl (by simp [List.mem_cons]; exact Or.inr (List.drop_subset n rest h))
            · exact Or.inr h

theorem subAll_mem (m : List Char → Option Nat) (tok : List Char) (l : List Char)
    (a : Char) (ha : a ∈ subAll m tok l) : a ∈ l ∨ a ∈ tok :=
  subAll_mem_aux m tok l.length l le_rfl a ha

theorem divergeW_cons (m' : List Char → Option Nat) (c : Char) (u v : List Char)
    (h : DivergeW m' u v) : DivergeW m' (c :: u) (c :: v) := by
  rcases h with h | ⟨w, d, z, z', hu, hv, hm⟩
  · exact Or.inl (by rw [h])
  · exact Or.inr ⟨c :: w, d, z, z', by simp [hu], by simp [hv], hm⟩

theorem divergeW_subAll (m : List Char → Option Nat) (tok : List Char)
    (tr : List Char) (htok : tok = '[' :: tr) :
    ∀ N l, l.length ≤ N → DivergeW m l (subAll m tok l) := by
  intro N
  induction N with
  | zero =>
    intro l hl
    cases l with
    | nil => exact Or.inl (subAll_nil m tok)
    | cons c rest => simp at hl
  | succ N ih =>
    intro l hl
    cases l with
    | nil => exact Or.inl (subAll_nil m tok)
    | cons c rest =>
      cases hm : m (c :: rest) with
      | none =>
        rw [subAll_cons_none m tok c rest hm]
        exact divergeW_cons m c rest _ (ih rest (by simp at hl; omega))
      | some k =>
        cases k with
        | zero =>
          rw [subAll_cons_zero m tok c rest hm]
          exact divergeW_cons m c rest _ (ih rest (by simp at hl; omega))
        | succ n =>
          rw [subAll_cons_some m tok c rest n hm, htok]
          exact Or.inr ⟨[], c, rest, tr ++ subAll m ('[' :: tr) (rest.drop n),
            by simp, by simp, n + 1, hm⟩

theorem divergeW_none (m m' : List Char → Option Nat) (u v : List Char)
    (h0 : m u = none) (hd : DivergeW m' u v)
    (hB : ∀ w d z z' y, m (w ++ '[' :: z') = some y →
      (∃ n', m' (d :: z) = some n') → ∃ j, m (w ++ d :: z) = some j) :
    m v = none := by
  rcases hd with hd | ⟨w, d, z, z', hu, hv, hm⟩
  · rw [hd]; exact h0
  · cases hv2 : m v with
    | none => rfl
    | some y =>
      rw [hv] at hv2
      rcases hB w d z z' y hv2 hm with ⟨j, hj⟩
      rw [hu] at h0
      rw [h0] at hj
      exact absurd hj (by simp)

theorem drop_append_of_lt {A : Nat} (w v : List Char) (h : A < w.length) :
    (w ++ v).drop A = w.drop A ++ v := by
  rw [List.drop_append_eq_append_drop]
  have h0 : A - w.length = 0 := by omega
  rw [h0, List.drop_zero]

theorem drop_cons_of_lt {A : Nat} (w : List Char) (h : A < w.length) :
    ∃ d w1, w.drop A = d :: w1 := by
  cases hw : w.drop A with
  | nil =>
    have := List.length_drop A w
    rw [hw] at this
    simp at this
    omega
  | cons d w1 => exact ⟨d, w1, rfl⟩

theorem takeRun_append_stop (p : Char → Bool) (b : Char) (hb : p b = false)
    (w y : List Char) :
    takeRun p (w ++ b :: y) = if takeRun p w = w.length then w.length else takeRun p w := by
  rw [takeRun_append]
  by_cases h : takeRun p w = w.length <;> simp [h, takeRun_cons, hb]

theorem takeRun_append_of_lt (p : Char → Bool) (w v : List Char)
    (h : takeRun p w < w.length) : takeRun p (w ++ v) = takeRun p w := by
  rw [takeRun_append, if_neg (by omega)]

/-- The email pattern cannot match across the `'['` that every
substitution token starts with: a match in `w ++ '[' :: y` lies inside
`w`, hence survives any replacement of the tail. -/
theorem email_B (w y x : List Char) (n : Nat)
    (h : emailMatch (w ++ '[' :: y) = some n) : ∃ k, emailMatch (w ++ x) = some k := by
  unfold emailMatch at h
  split at h
  · exact absurd h (by simp)
  next hA0 =>
  have hstop := takeRun_append_stop isLocalChar '[' (by decide) w y
  by_cases hw : takeRun isLocalChar w = w.length
  · rw [if_pos hw] at hstop
    rw [hstop, List.drop_left] at h
    simp at h
  rw [if_neg hw] at hstop
  have hlt : takeRun isLocalChar w < w.length :=
    lt_of_le_of_ne (takeRun_le_length _ _) hw
  rw [hstop, drop_append_of_lt w _ hlt] at h
  rcases drop_cons_of_lt w hlt with ⟨d, w1, hd⟩
  rw [hd] at h
  split at h
  on_goal 2 => exact absurd h (by simp)
  next r2 heq =>
  have hdat : d = '@' := by
    have := congrArg (fun l => l.head?) heq
    simpa using this
  have hr2 : r2 = w1 ++ '[' :: y := by
    have := congrArg (fun l => l.tail) heq
    simpa using this.symm
  clear heq
  rw [hr2] at h
  unfold emailDom at h
  split at h
  · exact absurd h (by simp)
  next hB0 =>
  have hstop2 := takeRun_append_stop isDomChar '[' (by decide) w1 y
  by_cases hw1 : takeRun isDomChar w1 = w1.length
  · rw [if_pos hw1] at hstop2
    rw [hstop2, List.drop_left] at h
    simp at h
  rw [if_neg hw1] at hstop2
  have hlt1 : takeRun isDomChar w1 < w1.length :=
    lt_of_le_of_ne (takeRun_le_length _ _) hw1
  rw [hstop2, drop_append_of_lt w1 _ hlt1] at h
  rcases drop_cons_of_lt w1 hlt1 with ⟨e, w2, he⟩
  rw [he] at h
  split at h
  on_goal 2 => exact absurd h (by simp)
  next r3 heq2 =>
  have heat : e = '.' := by
    have := congrArg (fun l => l.head?) heq2
    simpa using this
  have hr3 : r3 = w2 ++ '[' :: y := by
    have := congrArg (fun l => l.tail) heq2
    simpa using this.symm
  clear heq2
  rw [hr3] at h
  unfold emailTail at h
  split at h
  · exact absurd h (by simp)
  next hC0 =>
  cases w2 with
  | nil =>
    rw [List.nil_append, takeRun_cons] at hC0
    simp at hC0
    exact absurd hC0 (by decide)
  | cons t w3 =>
  have ht : isTailChar t = true := by
    by_contra hns
    rw [List.cons_append, takeRun_cons] at hC0
    simp [Bool.of_not_eq_true hns] at hC0
  refine ⟨takeRun isLocalChar w + 1 + takeRun isDomChar w1 + 1 +
    takeRun isTailChar (t :: (w3 ++ x)), ?_⟩
  unfold emailMatch
  rw [takeRun_append_of_lt _ _ _ hlt, if_neg (by omega),
    drop_append_of_lt w _ hlt, hd, hdat]
  show emailDom (takeRun isLocalChar w) (w1 ++ x) = _
  unfold emailDom
  rw [takeRun_append_of_lt _ _ _ hlt1, if_neg (by omega),
    drop_append_of_lt w1 _ hlt1, he, heat]
  show emailTail (takeRun isLocalChar w) (takeRun isDomChar w1) (t :: (w3 ++ x)) = _
  unfold emailTail
  rw [if_neg (by simp [takeRun_cons, ht])]

theorem take_append_of_le {M : Nat} (w v : List Char) (h : M ≤ w.length) :
    (w ++ v).take M = w.take M := by
  rw [List.take_append_eq_append_take]
  have h0 : M - w.length = 0 := by omega
  rw [h0, List.take_zero, List.append_nil]

theorem lastDigitIdx_append_some (u v : List Char) (j : Nat)
    (hv : lastDigitIdx v = some j) :
    lastDigitIdx (u ++ v) = some (u.length + j) := by
  induction u with
  | nil => simpa using hv
  | cons c u ih =>
    rw [List.cons_append]
    unfold lastDigitIdx
    rw [ih]
    show some (u.length + j + 1) = some ((c :: u).length + j)
    congr 1
    simp [List.length_cons]
    omega

theorem lastDigitIdx_append_none (u v : List Char) (hv : lastDigitIdx v = none) :
    lastDigitIdx (u ++ v) = lastDigitIdx u := by
  induction u with
  | nil => simpa using hv
  | cons c u ih =>
    rw [List.cons_append]
    unfold lastDigitIdx
    rw [ih]

theorem lastDigitIdx_lt (u : List Char) (k : Nat) (h : lastDigitIdx u = some k) :
    k < u.length := by
  induction u generalizing k with
  | nil => simp [lastDigitIdx] at h
  | cons c u ih =>
    unfold lastDigitIdx at h
    cases hu : lastDigitIdx u with
    | some j =>
      rw [hu] at h
      simp at h
      have := ih j hu
      simp [List.length_cons]
      omega
    | none =>
      rw [hu] at h
      by_cases hc : c.isDigit <;> simp [hc] at h <;> simp [List.length_cons]
      omega

theorem phoneCore_cons (d : Char) (r : List Char) :
    phoneCore (d :: r) =
      if d.isDigit then
        match lastDigitIdx (r.take (takeRun isPhoneChar r)) with
        | some k => phoneAfter k
        | none => none
      else none := rfl

/-- The phone pattern cannot match across a `'['`: a match in
`w ++ '[' :: y` lies inside `w` and survives any replacement of the
tail (possibly growing, since added class characters can only move the
final digit further right). -/
theorem phoneCore_B (w y x : List Char) (n : Nat)
    (h : phoneCore (w ++ '[' :: y) = some n) : ∃ k, phoneCore (w ++ x) = some k := by
  cases w with
  | nil =>
    rw [List.nil_append, show phoneCore ('[' :: y) = none from rfl] at h
    exact absurd h (by simp)
  | cons d w1 =>
  rw [List.cons_append, phoneCore_cons] at h
  split at h
  on_goal 2 => exact absurd h (by simp)
  next hd =>
  split at h
  on_goal 2 => exact absurd h (by simp)
  next k hldi =>
  unfold phoneAfter at h
  split at h
  on_goal 2 => exact absurd h (by simp)
  next h6 =>
  have hstop := takeRun_append_stop isPhoneChar '[' (by decide) w1 y
  suffices hs : (phoneCore ((d :: w1) ++ x)).isSome = true by
    rcases Option.isSome_iff_exists.mp hs with ⟨k2, hk2⟩
    exact ⟨k2, hk2⟩
  rw [List.cons_append, phoneCore_cons, if_pos hd]
  by_cases hw1 : takeRun isPhoneChar w1 = w1.length
  · -- the class run reaches the boundary: it may extend into x
    rw [if_pos hw1] at hstop
    rw [hstop, take_append_of_le w1 _ le_rfl, List.take_length] at hldi
    have hk1 : k < w1.length := lastDigitIdx_lt w1 k hldi
    have hTR : takeRun isPhoneChar (w1 ++ x) = w1.length + takeRun isPhoneChar x := by
      rw [takeRun_append, if_pos hw1]
    have hTK : (w1 ++ x).take (w1.length + takeRun isPhoneChar x) =
        w1 ++ x.take (takeRun isPhoneChar x) := by
      rw [List.take_append_eq_append_take,
        List.take_of_length_le (Nat.le_add_right w1.length _),
        Nat.add_sub_cancel_left w1.length _]
    rw [hTR, hTK]
    cases hx : lastDigitIdx (x.take (takeRun isPhoneChar x)) with
    | some j =>
      rw [lastDigitIdx_append_some w1 _ j hx]
      show (phoneAfter (w1.length + j)).isSome = true
      unfold phoneAfter
      rw [if_pos (by omega)]
      rfl
    | none =>
      rw [lastDigitIdx_append_none w1 _ hx, hldi]
      show (phoneAfter k).isSome = true
      unfold phoneAfter
      rw [if_pos h6]
      rfl
  · -- the class run stops inside w1: everything is unchanged
    rw [if_neg hw1] at hstop
    have hlt : takeRun isPhoneChar w1 < w1.length :=
      lt_of_le_of_ne (takeRun_le_length _ _) hw1
    rw [hstop, take_append_of_le w1 _ (by omega)] at hldi
    rw [takeRun_append_of_lt _ _ _ hlt, take_append_of_le w1 _ (by omega), hldi]
    show (phoneAfter k).isSome = true
    unfold phoneAfter
    rw [if_pos h6]
    rfl

theorem phoneMatch_not_plus (c : Char) (w1 v : List Char) (hc : c ≠ '+') :
    phoneMatch ((c :: w1) ++ v) = phoneCore ((c :: w1) ++ v) := by
  rw [List.cons_append]
  unfold phoneMatch
  split
  next r heq => exact absurd (List.cons.inj heq).1 hc
  next => rfl

theorem phone_B (w y x : List Char) (n : Nat)
    (h : phoneMatch (w ++ '[' :: y) = some n) : ∃ k, phoneMatch (w ++ x) = some k := by
  cases w with
  | nil =>
    rw [List.nil_append, show phoneMatch ('[' :: y) = none from rfl] at h
    exact absurd h (by simp)
  | cons c w1 =>
  by_cases hc : c = '+'
  · subst hc
    rw [List.cons_append,
      show ∀ r, phoneMatch ('+' :: r) = (phoneCore r).map (· + 1) from fun _ => rfl] at h
    rcases Option.map_eq_some'.mp h with ⟨m0, hm0, _⟩
    rcases phoneCore_B w1 y x m0 hm0 with ⟨k, hk⟩
    refine ⟨k + 1, ?_⟩
    rw [List.cons_append,
      show ∀ r, phoneMatch ('+' :: r) = (phoneCore r).map (· + 1) from fun _ => rfl, hk]
    rfl
  · rw [phoneMatch_not_plus c w1 _ hc] at h
    rcases phoneCore_B (c :: w1) y x n h with ⟨k, hk⟩
    exact ⟨k, by rw [phoneMatch_not_plus c w1 x hc]; exact hk⟩

theorem afterLit_self_append (pat u : List Char) : afterLit pat (pat ++ u) = some u := by
  induction pat with
  | nil => rfl
  | cons a p ih =>
    rw [List.cons_append]
    unfold afterLit
    rw [if_pos rfl]
    exact ih

theorem afterLit_decomp : ∀ pat : List Char, '[' ∉ pat → ∀ w y r : List Char,
    afterLit pat (w ++ '[' :: y) = some r → ∃ w1, w = pat ++ w1 ∧ r = w1 ++ '[' :: y := by
  intro pat
  induction pat with
  | nil =>
    intro _ w y r h
    refine ⟨w, rfl, ?_⟩
    have : some (w ++ '[' :: y) = some r := h
    simpa using this.symm
  | cons a p ih =>
    intro hpat w y r h
    cases w with
    | nil =>
      rw [List.nil_append] at h
      unfold afterLit at h
      rw [if_neg (fun hh => hpat (by rw [← hh]; exact List.mem_cons_self a p))] at h
      exact absurd h (by simp)
    | cons b w1 =>
      rw [List.cons_append] at h
      unfold afterLit at h
      by_cases hab : a = b
      · rw [if_pos hab] at h
        rcases ih (fun hm => hpat (List.mem_cons_of_mem a hm)) w1 y r h with ⟨w2, hw2, hr⟩
        exact ⟨w2, by rw [List.cons_append, hw2, hab], hr⟩
      · rw [if_neg hab] at h
        exact absurd h (by simp)

theorem nonspaceTail_B (pre pre2 : Nat) (w1 y z : List Char) (d : Char) (n : Nat)
    (h : nonspaceTail pre (w1 ++ '[' :: y) = some n) (hd : d.isWhitespace = false) :
    (nonspaceTail pre2 (w1 ++ d :: z)).isSome = true := by
  unfold nonspaceTail at h ⊢
  split at h
  · exact absurd h (by simp)
  next hk =>
  cases w1 with
  | nil =>
    have hne : takeRun (fun c => !c.isWhitespace) (d :: z) ≠ 0 := by
      rw [takeRun_cons, if_pos (by simp [hd])]
      simp
    rw [List.nil_append, if_neg hne]
    rfl
  | cons e w2 =>
    have he : (!e.isWhitespace) = true := by
      by_contra hns
      rw [List.cons_append, takeRun_cons] at hk
      rw [if_neg (by simpa using hns)] at hk
      exact hk rfl
    have hne : takeRun (fun c => !c.isWhitespace) ((e :: w2) ++ d :: z) ≠ 0 := by
      rw [List.cons_append, takeRun_cons, if_pos (by simpa using he)]
      simp
    rw [if_neg hne]
    rfl

/-- The URL pattern's literal scheme cannot contain a `'['`, and its
`\S+` tail is satisfied by any non-whitespace continuation, in
particular by the head of a URL match (always `h` or `w`).  So a URL
match in `w ++ '[' :: y` survives when the tail is replaced by a URL
substitution token's text `d :: z` with `d` non-whitespace. -/
theorem url_B (w y z : List Char) (d : Char) (n : Nat)
    (h : urlMatch (w ++ '[' :: y) = some n) (hd : d.isWhitespace = false) :
    ∃ k, urlMatch (w ++ d :: z) = some k := by
  suffices hs : (urlMatch (w ++ d :: z)).isSome = true from
    Option.isSome_iff_exists.mp hs
  unfold urlMatch at h
  split at h
  next r hr =>
    rcases afterLit_decomp httpsLit (by decide) w y r hr with ⟨w1, hw, hrr⟩
    subst hw
    unfold urlMatch
    rw [List.append_assoc, afterLit_self_append]
    show (nonspaceTail 8 (w1 ++ d :: z)).isSome = true
    exact nonspaceTail_B 8 8 w1 y z d n (by rw [hrr] at h; exact h) hd
  next hr1 =>
  split at h
  next r hr =>
    rcases afterLit_decomp httpLit (by decide) w y r hr with ⟨w1, hw, hrr⟩
    subst hw
    unfold urlMatch
    have e1 : ∀ u : List Char, afterLit httpsLit (httpLit ++ u) = none := fun u => rfl
    rw [List.append_assoc, e1, afterLit_self_append]
    show (nonspaceTail 7 (w1 ++ d :: z)).isSome = true
    exact nonspaceTail_B 7 7 w1 y z d n (by rw [hrr] at h; exact h) hd
  next hr2 =>
  split at h
  next r hr =>
    rcases afterLit_decomp wwwLit (by decide) w y r hr with ⟨w1, hw, hrr⟩
    subst hw
    unfold urlMatch
    have e1 : ∀ u : List Char, afterLit httpsLit (wwwLit ++ u) = none := fun u => rfl
    have e2 : ∀ u : List Char, afterLit httpLit (wwwLit ++ u) = none := fun u => rfl
    rw [List.append_assoc, e1, e2, afterLit_self_append]
    show (nonspaceTail 4 (w1 ++ d :: z)).isSome = true
    exact nonspaceTail_B 4 4 w1 y z d n (by rw [hrr] at h; exact h) hd
  next => exact absurd h (by simp)

theorem ciPre_block (t : List Char) (bc : Char)
    (hne : ∀ c ∈ t, ¬ c = Char.toLower bc) :
    ∀ w y, ciPre t (w ++ bc :: y) = true → t.length ≤ w.length ∧ ciPre t w = true := by
  induction t with
  | nil => intro w y _; exact ⟨by simp, rfl⟩
  | cons a t ih =>
    intro w y h
    cases w with
    | nil =>
      rw [List.nil_append] at h
      unfold ciPre at h
      rw [Bool.and_eq_true] at h
      exact absurd (by simpa using h.1) (hne a (List.mem_cons_self a t))
    | cons b w1 =>
      rw [List.cons_append] at h
      unfold ciPre at h
      rw [Bool.and_eq_true] at h
      rcases ih (fun c hc => hne c (List.mem_cons_of_mem a hc)) w1 y h.2 with ⟨hl, hp⟩
      refine ⟨by simp [List.length_cons]; omega, ?_⟩
      unfold ciPre
      rw [Bool.and_eq_true]
      exact ⟨h.1, hp⟩

theorem ciPre_extend (t : List Char) : ∀ w x, ciPre t w = true → ciPre t (w ++ x) = true := by
  induction t with
  | nil => intro w x _; rfl
  | cons a t ih =>
    intro w x h
    cases w with
    | nil => exact absurd h (by simp [ciPre])
    | cons b w1 =>
      rw [List.cons_append]
      unfold ciPre at h ⊢
      rw [Bool.and_eq_true] at h ⊢
      exact ⟨h.1, ih w1 x h.2⟩

theorem firstCi_exists_of (ts : List (List Char)) (l : List Char) (n : Nat)
    (h : firstCi ts l = some n) : ∃ t, t ∈ ts ∧ ciPre t l = true := by
  induction ts with
  | nil => simp [firstCi] at h
  | cons t ts ih =>
    unfold firstCi at h
    by_cases hp : ciPre t l = true
    · exact ⟨t, List.mem_cons_self t ts, hp⟩
    · rw [if_neg hp] at h
      rcases ih h with ⟨t2, ht2, hp2⟩
      exact ⟨t2, List.mem_cons_of_mem t ht2, hp2⟩

theorem firstCi_some_of (ts : List (List Char)) (l : List Char) (t : List Char)
    (ht : t ∈ ts) (hp : ciPre t l = true) : ∃ k, firstCi ts l = some k := by
  induction ts with
  | nil => simp at ht
  | cons t0 ts ih =>
    unfold firstCi
    by_cases hp0 : ciPre t0 l = true
    · rw [if_pos hp0]
      exact ⟨t0.length, rfl⟩
    · rw [if_neg hp0]
      rcases List.mem_cons.mp ht with he | hm
      · exact absurd (he ▸ hp) hp0
      · exact ih hm

/-- A sensitive-term match is a literal of lowercase letters, so it
cannot include a `'['` even case-insensitively: it lies inside `w`. -/
theorem sens_B (w y x : List Char) (n : Nat)
    (h : sensMatch (w ++ '[' :: y) = some n) : ∃ k, sensMatch (w ++ x) = some k := by
  rcases firstCi_exists_of sensTerms _ n h with ⟨t, ht, hp⟩
  have hne : ∀ c ∈ t, ¬ c = Char.toLower '[' := by
    have hall : ∀ t2 ∈ sensTerms, ∀ c ∈ t2, ¬ c = Char.toLower '[' := by decide
    exact hall t ht
  rcases ciPre_block t '[' hne w y hp with ⟨_, hpw⟩
  exact firstCi_some_of sensTerms (w ++ x) t ht (ciPre_extend t w x hpw)

theorem email_blocked (x w : List Char) (hx : emailBlockedAt x = true) :
    emailMatch (x ++ w) = none := by
  unfold emailBlockedAt at hx
  rw [Bool.and_eq_true] at hx
  have hlt : takeRun isLocalChar x < x.length := of_decide_eq_true hx.1
  have hx2 := hx.2
  cases hdrop : x.drop (takeRun isLocalChar x) with
  | nil => rw [hdrop] at hx2; simp at hx2
  | cons c r =>
  rw [hdrop] at hx2
  have hc : c ≠ '@' := by simpa using hx2
  unfold emailMatch
  rw [takeRun_append_of_lt _ _ _ hlt, drop_append_of_lt x _ hlt, hdrop]
  by_cases hz : takeRun isLocalChar x = 0
  · rw [if_pos hz]
  · rw [if_neg hz, List.cons_append]
    split
    next r2 heq => exact absurd (List.cons.inj heq).1 hc
    next => rfl

theorem phone_head_blocked (c : Char) (l : List Char) (h1 : c ≠ '+')
    (h2 : c.isDigit = false) : phoneMatch (c :: l) = none := by
  unfold phoneMatch
  split
  next r heq => exact absurd (List.cons.inj heq).1 h1
  next =>
    rw [phoneCore_cons, if_neg (by simp [h2])]

theorem url_head_blocked (c : Char) (l : List Char) (h1 : c ≠ 'h') (h2 : c ≠ 'w') :
    urlMatch (c :: l) = none := by
  have e1 : afterLit httpsLit (c :: l) = none := by
    show afterLit ('h' :: "ttps://".data) (c :: l) = none
    unfold afterLit
    rw [if_neg (fun hh => h1 hh.symm)]
  have e2 : afterLit httpLit (c :: l) = none := by
    show afterLit ('h' :: "ttp://".data) (c :: l) = none
    unfold afterLit
    rw [if_neg (fun hh => h1 hh.symm)]
  have e3 : afterLit wwwLit (c :: l) = none := by
    show afterLit ('w' :: "ww.".data) (c :: l) = none
    unfold afterLit
    rw [if_neg (fun hh => h2 hh.symm)]
  unfold urlMatch
  rw [e1, e2, e3]

theorem ciBlocked_spec (t : List Char) : ∀ x, ciBlocked t x = true →
    ∀ w, ciPre t (x ++ w) = false := by
  induction t with
  | nil => intro x h; simp [ciBlocked] at h
  | cons a t ih =>
    intro x h w
    cases x with
    | nil => simp [ciBlocked] at h
    | cons b x1 =>
      unfold ciBlocked at h
      rw [Bool.or_eq_true] at h
      rw [List.cons_append]
      unfold ciPre
      rcases h with h | h
      · have hne : (decide (a = Char.toLower b)) = false := by simpa using h
        rw [hne, Bool.false_and]
      · rw [ih x1 h w, Bool.and_false]

theorem firstCi_none_of (ts : List (List Char)) (l : List Char)
    (h : ∀ t ∈ ts, ciPre t l = false) : firstCi ts l = none := by
  induction ts with
  | nil => rfl
  | cons t0 ts ih =>
    unfold firstCi
    rw [if_neg (by rw [h t0 (List.mem_cons_self t0 ts)]; simp)]
    exact ih fun t ht => h t (List.mem_cons_of_mem t0 ht)

theorem sens_blocked (x w : List Char) (hx : sensBlockedAt x = true) :
    sensMatch (x ++ w) = none := by
  unfold sensBlockedAt at hx
  rw [List.all_eq_true] at hx
  exact firstCi_none_of sensTerms (x ++ w) fun t ht =>
    ciBlocked_spec t x (hx t ht) w

/-! ## The Clean invariant: no pattern match anywhere in a list -/

theorem cleanFor_suffix (m : List Char → Option Nat) (l t : List Char)
    (h : CleanFor m l) (ht : t <:+ l) : CleanFor m t :=
  fun t2 ht2 => h t2 (ht2.trans ht)

theorem suffix_append_cases (t u v : List Char) (h : t <:+ u ++ v) :
    t <:+ v ∨ ∃ x1, x1 <:+ u ∧ t = x1 ++ v := by
  induction u with
  | nil => exact Or.inl (by simpa using h)
  | cons a u ih =>
    rw [List.cons_append] at h
    rcases List.suffix_cons_iff.mp h with he | hs
    · exact Or.inr ⟨a :: u, List.suffix_refl _, by rw [he, List.cons_append]⟩
    · rcases ih hs with h1 | ⟨x1, hx1, he⟩
      · exact Or.inl h1
      · exact Or.inr ⟨x1, hx1.trans (List.suffix_cons a u), he⟩

/-- One `subAll` pass with its own matcher leaves no match of that
matcher anywhere in the output. -/
theorem subAll_clean_self
    (m : List Char → Option Nat) (tok tr : List Char) (htok : tok = '[' :: tr)
    (hnil : m [] = none)
    (hpos : ∀ l k, m l = some k → k ≠ 0)
    (htokSuf : ∀ x1 w, x1 <:+ tok → x1 ≠ [] → m (x1 ++ w) = none)
    (hB : ∀ w d z z' y, m (w ++ '[' :: z') = some y →
      (∃ n', m (d :: z) = some n') → ∃ j, m (w ++ d :: z) = some j) :
    ∀ N l, l.length ≤ N → CleanFor m (subAll m tok l) := by
  intro N
  induction N with
  | zero =>
    intro l hl
    cases l with
    | nil =>
      intro t ht
      rw [subAll_nil] at ht
      rw [List.suffix_nil.mp ht]
      exact hnil
    | cons c rest => simp at hl
  | succ N ih =>
    intro l hl
    cases l with
    | nil =>
      intro t ht
      rw [subAll_nil] at ht
      rw [List.suffix_nil.mp ht]
      exact hnil
    | cons c rest =>
      cases hm : m (c :: rest) with
      | none =>
        rw [subAll_cons_none m tok c rest hm]
        intro t ht
        rcases List.suffix_cons_iff.mp ht with he | hs
        · rw [he]
          exact divergeW_none m m (c :: rest) (c :: subAll m tok rest) hm
            (divergeW_cons m c _ _ (divergeW_subAll m tok tr htok rest.length rest le_rfl)) hB
        · exact ih rest (by simp at hl; omega) t hs
      | some k =>
        cases k with
        | zero => exact absurd rfl (hpos _ 0 hm)
        | succ n =>
          rw [subAll_cons_some m tok c rest n hm]
          intro t ht
          rcases suffix_append_cases t tok _ ht with hs | ⟨x1, hx1, he⟩
          · exact ih (rest.drop n) (by simp [List.length_drop] at hl ⊢; omega) t hs
          · by_cases hx1e : x1 = []
            · rw [he, hx1e, List.nil_append]
              exact ih (rest.drop n) (by simp [List.length_drop] at hl ⊢; omega) _
                (List.suffix_refl _)
            · rw [he]
              exact htokSuf x1 _ hx1 hx1e

/-- A `subAll` pass with another matcher `m'` cannot create a match of a
matcher `m` that had none, provided `m` cannot match into `m'`'s token
and survives the head replacement of an `m'` match. -/
theorem subAll_clean_pres
    (m m' : List Char → Option Nat) (tok' tr' : List Char) (htok : tok' = '[' :: tr')
    (htokSuf : ∀ x1 w, x1 <:+ tok' → x1 ≠ [] → m (x1 ++ w) = none)
    (hB : ∀ w d z z' y, m (w ++ '[' :: z') = some y →
      (∃ n', m' (d :: z) = some n') → ∃ j, m (w ++ d :: z) = some j) :
    ∀ N l, l.length ≤ N → CleanFor m l → CleanFor m (subAll m' tok' l) := by
  intro N
  induction N with
  | zero =>
    intro l hl hcl
    cases l with
    | nil =>
      intro t ht
      rw [subAll_nil] at ht
      rw [List.suffix_nil.mp ht]
      exact hcl [] (List.suffix_refl _)
    | cons c rest => simp at hl
  | succ N ih =>
    intro l hl hcl
    cases l with
    | nil =>
      intro t ht
      rw [subAll_nil] at ht
      rw [List.suffix_nil.mp ht]
      exact hcl [] (List.suffix_refl _)
    | cons c rest =>
      have hrest : CleanFor m rest := cleanFor_suffix m _ rest hcl (List.suffix_cons c rest)
      cases hm : m' (c :: rest) with
      | none =>
        rw [subAll_cons_none m' tok' c rest hm]
        intro t ht
        rcases List.suffix_cons_iff.mp ht with he | hs
        · rw [he]
          exact divergeW_none m m' (c :: rest) (c :: subAll m' tok' rest)
            (hcl (c :: rest) (List.suffix_refl _))
            (divergeW_cons m' c _ _ (divergeW_subAll m' tok' tr' htok rest.length rest le_rfl))
            hB
        · exact ih rest (by simp at hl; omega) hrest t hs
      | some k =>
        cases k with
        | zero =>
          rw [subAll_cons_zero m' tok' c rest hm]
          intro t ht
          rcases List.suffix_cons_iff.mp ht with he | hs
          · rw [he]
            exact divergeW_none m m' (c :: rest) (c :: subAll m' tok' rest)
              (hcl (c :: rest) (List.suffix_refl _))
              (divergeW_cons m' c _ _ (divergeW_subAll m' tok' tr' htok rest.length rest le_rfl))
              hB
          · exact ih rest (by simp at hl; omega) hrest t hs
        | succ n =>
          rw [subAll_cons_some m' tok' c rest n hm]
          intro t ht
          rcases suffix_append_cases t tok' _ ht with hs | ⟨x1, hx1, he⟩
          · exact ih (rest.drop n) (by simp [List.length_drop] at hl ⊢; omega)
              (cleanFor_suffix m rest _ hrest (List.drop_suffix n rest)) t hs
          · by_cases hx1e : x1 = []
            · rw [he, hx1e, List.nil_append]
              exact ih (rest.drop n) (by simp [List.length_drop] at hl ⊢; omega)
                (cleanFor_suffix m rest _ hrest (List.drop_suffix n rest)) _
                (List.suffix_refl _)
            · rw [he]
              exact htokSuf x1 _ hx1 hx1e

theorem emailMatch_nil : emailMatch [] = none := rfl
theorem phoneMatch_nil : phoneMatch [] = none := rfl
theorem urlMatch_nil : urlMatch [] = none := rfl
theorem sensMatch_nil : sensMatch [] = none := rfl

theorem email_pos (l : List Char) (k : Nat) (h : emailMatch l = some k) : k ≠ 0 := by
  unfold emailMatch at h
  split at h
  · simp at h
  split at h
  on_goal 2 => simp at h
  next r2 heq =>
  unfold emailDom at h
  split at h
  · simp at h
  split at h
  on_goal 2 => simp at h
  next r3 heq3 =>
  unfold emailTail at h
  split at h
  · simp at h
  simp at h
  omega

theorem phone_pos (l : List Char) (k : Nat) (h : phoneMatch l = some k) : k ≠ 0 := by
  unfold phoneMatch at h
  have core : ∀ l2 k2, phoneCore l2 = some k2 → k2 ≠ 0 := by
    intro l2 k2 h2
    cases l2 with
    | nil => simp [phoneCore] at h2
    | cons d r =>
      rw [phoneCore_cons] at h2
      split at h2
      on_goal 2 => simp at h2
      split at h2
      on_goal 2 => simp at h2
      unfold phoneAfter at h2
      split at h2
      on_goal 2 => simp at h2
      simp at h2
      omega
  split at h
  · rcases Option.map_eq_some'.mp h with ⟨m0, _, hm⟩
    omega
  · exact core _ _ h

theorem url_pos (l : List Char) (k : Nat) (h : urlMatch l = some k) : k ≠ 0 := by
  unfold urlMatch at h
  have ns : ∀ pre r k2, nonspaceTail pre r = some k2 → k2 = pre + takeRun (fun c => !c.isWhitespace) r := by
    intro pre r k2 h2
    unfold nonspaceTail at h2
    split at h2
    · simp at h2
    · simpa using h2.symm
  split at h
  · have := ns _ _ _ h
    omega
  split at h
  · have := ns _ _ _ h
    omega
  split at h
  · have := ns _ _ _ h
    omega
  · simp at h

theorem sens_pos (l : List Char) (k : Nat) (h : sensMatch l = some k) : k ≠ 0 := by
  have step : ∀ ts : List (List Char), (∀ t ∈ ts, t.length ≠ 0) →
      ∀ k2, firstCi ts l = some k2 → k2 ≠ 0 := by
    intro ts
    induction ts with
    | nil => intro _ k2 h2; simp [firstCi] at h2
    | cons t0 ts ih =>
      intro hlen k2 h2
      unfold firstCi at h2
      split at h2
      · have := hlen t0 (List.mem_cons_self t0 ts)
        simp at h2
        omega
      · exact ih (fun t ht => hlen t (List.mem_cons_of_mem t0 ht)) k2 h2
  exact step sensTerms (by decide) k h

theorem url_head_of_some (d : Char) (z : List Char) (n : Nat)
    (h : urlMatch (d :: z) = some n) : d = 'h' ∨ d = 'w' := by
  by_contra hc
  push_neg at hc
  rw [url_head_blocked d z hc.1 hc.2] at h
  simp at h

theorem emailTok_kills_email : ∀ x1 w : List Char, x1 <:+ emailTok → x1 ≠ [] →
    emailMatch (x1 ++ w) = none := by
  intro x1 w hsuf hne
  have hall : ∀ x2 ∈ emailTok.tails, x2 = [] ∨ emailBlockedAt x2 = true := by decide
  rcases hall x1 ((List.mem_tails x1 emailTok).mpr hsuf) with h | h
  · exact absurd h hne
  · exact email_blocked x1 w h

theorem phoneTok_kills_email : ∀ x1 w : List Char, x1 <:+ phoneTok → x1 ≠ [] →
    emailMatch (x1 ++ w) = none := by
  intro x1 w hsuf hne
  have hall : ∀ x2 ∈ phoneTok.tails, x2 = [] ∨ emailBlockedAt x2 = true := by decide
  rcases hall x1 ((List.mem_tails x1 phoneTok).mpr hsuf) with h | h
  · exact absurd h hne
  · exact email_blocked x1 w h

theorem urlTok_kills_email : ∀ x1 w : List Char, x1 <:+ urlTok → x1 ≠ [] →
    emailMatch (x1 ++ w) = none := by
  intro x1 w hsuf hne
  have hall : ∀ x2 ∈ urlTok.tails, x2 = [] ∨ emailBlockedAt x2 = true := by decide
  rcases hall x1 ((List.mem_tails x1 urlTok).mpr hsuf) with h | h
  · exact absurd h hne
  · exact email_blocked x1 w h

theorem phoneTok_kills_phone : ∀ x1 w : List Char, x1 <:+ phoneTok → x1 ≠ [] →
    phoneMatch (x1 ++ w) = none := by
  intro x1 w hsuf hne
  have hall : ∀ x2 ∈ phoneTok.tails,
      (match x2 with
       | [] => true
       | c :: _ => !(c = '+') && !c.isDigit) = true := by decide
  have hx := hall x1 ((List.mem_tails x1 phoneTok).mpr hsuf)
  cases x1 with
  | nil => exact absurd rfl hne
  | cons c r =>
    simp only [Bool.and_eq_true] at hx
    rw [List.cons_append]
    exact phone_head_blocked c (r ++ w) (by simpa using hx.1) (by simpa using hx.2)

theorem urlTok_kills_phone : ∀ x1 w : List Char, x1 <:+ urlTok → x1 ≠ [] →
    phoneMatch (x1 ++ w) = none := by
  intro x1 w hsuf hne
  have hall : ∀ x2 ∈ urlTok.tails,
      (match x2 with
       | [] => true
       | c :: _ => !(c = '+') && !c.isDigit) = true := by decide
  have hx := hall x1 ((List.mem_tails x1 urlTok).mpr hsuf)
  cases x1 with
  | nil => exact absurd rfl hne
  | cons c r =>
    simp only [Bool.and_eq_true] at hx
    rw [List.cons_append]
    exact phone_head_blocked c (r ++ w) (by simpa using hx.1) (by simpa using hx.2)

theorem urlTok_kills_url : ∀ x1 w : List Char, x1 <:+ urlTok → x1 ≠ [] →
    urlMatch (x1 ++ w) = none := by
  intro x1 w hsuf hne
  have hall : ∀ x2 ∈ urlTok.tails,
      (match x2 with
       | [] => true
       | c :: _ => !(c = 'h') && !(c = 'w')) = true := by decide
  have hx := hall x1 ((List.mem_tails x1 urlTok).mpr hsuf)
  cases x1 with
  | nil => exact absurd rfl hne
  | cons c r =>
    simp only [Bool.and_eq_true] at hx
    rw [List.cons_append]
    exact url_head_blocked c (r ++ w) (by simpa using hx.1) (by simpa using hx.2)

theorem sensTok_kills_sens : ∀ x1 w : List Char, x1 <:+ sensTok → x1 ≠ [] →
    sensMatch (x1 ++ w) = none := by
  intro x1 w hsuf hne
  have hall : ∀ x2 ∈ sensTok.tails, x2 = [] ∨ sensBlockedAt x2 = true := by decide
  rcases hall x1 ((List.mem_tails x1 sensTok).mpr hsuf) with h | h
  · exact absurd h hne
  · exact sens_blocked x1 w h

theorem cleanFor_fix (m : List Char → Option Nat) (tok : List Char) :
    ∀ l, CleanFor m l → subAll m tok l = l := by
  intro l
  induction l with
  | nil => intro _; exact subAll_nil m tok
  | cons c rest ih =>
    intro h
    have hm : m (c :: rest) = none := h (c :: rest) (List.suffix_refl _)
    rw [subAll_cons_none m tok c rest hm,
      ih (cleanFor_suffix m _ rest h (List.suffix_cons c rest))]

theorem clean_email_after (l : List Char) : CleanFor emailMatch (pySubs l) := by
  have he1 : CleanFor emailMatch (subAll emailMatch emailTok l) :=
    subAll_clean_self emailMatch emailTok ("REDACTED_EMAIL]".data) rfl emailMatch_nil
      email_pos emailTok_kills_email
      (fun w d z z' y h _ => email_B w z' (d :: z) y h) l.length l le_rfl
  have he2 := subAll_clean_pres emailMatch phoneMatch phoneTok ("REDACTED_PHONE]".data) rfl
    phoneTok_kills_email
    (fun w d z z' y h _ => email_B w z' (d :: z) y h) _ _ le_rfl he1
  have he3 := subAll_clean_pres emailMatch urlMatch urlTok ("REDACTED_URL]".data) rfl
    urlTok_kills_email
    (fun w d z z' y h _ => email_B w z' (d :: z) y h) _ _ le_rfl he2
  exact he3

theorem clean_phone_after (l : List Char) : CleanFor phoneMatch (pySubs l) := by
  have hp1 : CleanFor phoneMatch (subAll phoneMatch phoneTok (subAll emailMatch emailTok l)) :=
    subAll_clean_self phoneMatch phoneTok ("REDACTED_PHONE]".data) rfl phoneMatch_nil
      phone_pos phoneTok_kills_phone
      (fun w d z z' y h _ => phone_B w z' (d :: z) y h) _ _ le_rfl
  have hp2 := subAll_clean_pres phoneMatch urlMatch urlTok ("REDACTED_URL]".data) rfl
    urlTok_kills_phone
    (fun w d z z' y h _ => phone_B w z' (d :: z) y h) _ _ le_rfl hp1
  exact hp2

theorem clean_url_after (l : List Char) : CleanFor urlMatch (pySubs l) := by
  have hB : ∀ w d z z' y, urlMatch (w ++ '[' :: z') = some y →
      (∃ n', urlMatch (d :: z) = some n') → ∃ j, urlMatch (w ++ d :: z) = some j := by
    intro w d z z' y h hm
    rcases hm with ⟨n', hn'⟩
    have hd : d.isWhitespace = false := by
      rcases url_head_of_some d z n' hn' with h1 | h1 <;> subst h1 <;> decide
    exact url_B w z' z d y h hd
  exact subAll_clean_self urlMatch urlTok ("REDACTED_URL]".data) rfl urlMatch_nil
    url_pos urlTok_kills_url hB _ _ le_rfl

/-- The three substitution passes of `sanitize_text` are jointly
idempotent: their output contains no further email, phone or URL
match. -/
theorem pySubs_idem (l : List Char) : pySubs (pySubs l) = pySubs l := by
  have h1 := clean_email_after l
  have h2 := clean_phone_after l
  have h3 := clean_url_after l
  show subAll urlMatch urlTok (subAll phoneMatch phoneTok (subAll emailMatch emailTok (pySubs l))) = pySubs l
  rw [cleanFor_fix emailMatch emailTok _ h1, cleanFor_fix phoneMatch phoneTok _ h2,
    cleanFor_fix urlMatch urlTok _ h3]

theorem unescapeL_noAmp (l : List Char) (h : noAmp l) : unescapeL l = l := by
  induction l with
  | nil => rfl
  | cons c rest ih =>
    have hc : c ≠ '&' := fun he => h (by rw [← he]; exact List.mem_cons_self c rest)
    show unescapeF (rest.length + 1) (c :: rest) = c :: rest
    simp only [unescapeF]
    rw [if_neg hc]
    exact congrArg (c :: ·) (ih fun hm => h (List.mem_cons_of_mem c hm))

theorem noAmp_subAll (m : List Char → Option Nat) (tok l : List Char)
    (h : noAmp l) (ht : noAmp tok) : noAmp (subAll m tok l) := by
  intro hmem
  rcases subAll_mem m tok l '&' hmem with h1 | h1
  · exact h h1
  · exact ht h1

theorem noAmp_pySubs (l : List Char) (h : noAmp l) : noAmp (pySubs l) := by
  unfold pySubs
  exact noAmp_subAll _ _ _
    (noAmp_subAll _ _ _ (noAmp_subAll _ _ _ h (by unfold noAmp; decide))
      (by unfold noAmp; decide))
    (by unfold noAmp; decide)

/-- C1 (counterexample): `sanitize_text` is not idempotent on all
strings.  The double-encoded entity in `"a&amp;#64;b.com"` is unescaped
once per call: the first call outputs `"a&#64;b.com"` (no email pattern
matches it), and the second call unescapes `&#64;` to `@`, exposing a
fresh email that it redacts.  So applying the sanitizer a second time
changes the output, refuting the claim as stated. -/
theorem claim_C1_counterexample :
    sanitize_text (sanitize_text "a&amp;#64;b.com") ≠ sanitize_text "a&amp;#64;b.com" := by
  decide

/-- C1 (amended): `sanitize_text (sanitize_text s) = sanitize_text s`
for every string `s` that contains no ampersand (so no HTML character
reference, the only source of the counterexample).  On such strings the
HTML-unescape is the identity, the substitution tokens introduce no
ampersand, and the three substitution passes leave no email, phone or
URL match in their output (`pySubs_idem`), so a second pass is the
identity. -/
theorem claim_C1 (s : String) (h : '&' ∉ s.data) :
    sanitize_text (sanitize_text s) = sanitize_text s := by
  by_cases h0 : s = ""
  · rw [h0]
    rfl
  · have inner : sanitize_text s = String.mk (pySubs s.data) := by
      rw [sanitize_text, if_neg h0, unescapeL_noAmp s.data h]
    rw [inner]
    by_cases ht0 : String.mk (pySubs s.data) = ""
    · rw [sanitize_text, if_pos ht0]
      exact ht0.symm
    · rw [sanitize_text, if_neg ht0]
      show String.mk (pySubs (unescapeL (pySubs s.data))) = _
      rw [unescapeL_noAmp _ (noAmp_pySubs s.data h), pySubs_idem]

/-- C1 (witness): the amended idempotence at the concrete ampersand-free
string `"bob@mail.com x"`. -/
theorem claim_C1_witness :
    '&' ∉ ("bob@mail.com x").data ∧
      sanitize_text (sanitize_text "bob@mail.com x") = sanitize_text "bob@mail.com x" :=
  ⟨by decide, claim_C1 "bob@mail.com x" (by decide)⟩

theorem if_single_append_sublist (b : Prop) [Decidable b] (x : String)
    (rest L : List String) (h : List.Sublist rest L) :
    List.Sublist ((if b then [x] else []) ++ rest) (x :: L) := by
  by_cases hb : b
  · rw [if_pos hb, List.singleton_append]
    exact List.Sublist.cons₂ x h
  · rw [if_neg hb, List.nil_append]
    exact List.Sublist.cons x h

/-- C3: `detect_red_flags` always returns a subsequence of the six fixed
flag strings in rule-evaluation order (so each flag appears at most
once), and returns `[]` on the empty string.  The function is a pure
Lean function of its argument, so determinism is inherent. -/
theorem claim_C3 :
    (∀ s : String, List.Sublist (detect_red_flags s) allFlags) ∧
      detect_red_flags "" = [] := by
  constructor
  · intro s
    show List.Sublist _
      [flagPhoto, flagMoney, flagVideo, flagPrivate, flagAffection, flagCritical]
    simp only [detect_red_flags, List.append_assoc]
    apply if_single_append_sublist
    apply if_single_append_sublist
    apply if_single_append_sublist
    apply if_single_append_sublist
    apply if_single_append_sublist
    by_cases hb : wordOccurs sensitiveAlts (lowerL s.data) = true
    · rw [if_pos hb]
    · rw [if_neg hb]
      exact List.nil_sublist _
  · rfl

/-- C4 (counterexample): on `"send me your password"` the detector's
only flag is the code's string with an ASCII hyphen before `CRITICAL`,
not the spec's em-dash string, so the claim's quoted flag (with the
em-dash, `specCriticalFlag`) is not what the function returns. -/
theorem claim_C4_counterexample :
    detect_red_flags "send me your password" ≠ [specCriticalFlag] := by
  decide

/-- C4 (amended): `detect_red_flags "send me your password"` returns
exactly the one-element list containing the critical sensitive-data flag
as the code writes it: `"Sensitive data request (password/OTP/bank) -
CRITICAL"` with an ASCII hyphen. -/
theorem claim_C4 :
    detect_red_flags "send me your password" = [flagCritical] := by
  decide

theorem mem_if_single (b : Prop) [Decidable b] (x y : String) :
    (x ∈ (if b then [y] else [])) ↔ (b ∧ x = y) := by
  by_cases hb : b <;> simp [hb]

/-- C5: for any text containing an affection phrase as a whole word (in
its lower-cased form), the fast-affection flag is produced iff the text
is under 120 characters (`len(t)` is the length of the lower-cased text,
which equals the input's length). -/
theorem claim_C5 (s : String) (h : wordOccurs affectionAlts (lowerL s.data) = true) :
    flagAffection ∈ detect_red_flags s ↔ s.data.length < 120 := by
  have hlen : (lowerL s.data).length = s.data.length := by simp [lowerL]
  have n1 : flagAffection ≠ flagPhoto := by decide
  have n2 : flagAffection ≠ flagMoney := by decide
  have n3 : flagAffection ≠ flagVideo := by decide
  have n4 : flagAffection ≠ flagPrivate := by decide
  have n6 : flagAffection ≠ flagCritical := by decide
  simp only [detect_red_flags, List.mem_append, mem_if_single]
  simp [h, hlen, n1, n2, n3, n4, n6]

/-- C5 (witness): `"i love you"` contains an affection phrase, and the
flag-membership equivalence holds there (10 < 120, so the flag is
present). -/
theorem claim_C5_witness :
    wordOccurs affectionAlts (lowerL ("i love you").data) = true ∧
      (flagAffection ∈ detect_red_flags "i love you" ↔
        ("i love you").data.length < 120) :=
  ⟨by decide, claim_C5 "i love you" (by decide)⟩

theorem sensAnywhere_false_clean (l : List Char) (h : sensAnywhere l = false) :
    CleanFor sensMatch l := by
  induction l with
  | nil =>
    intro t ht
    rw [List.suffix_nil.mp ht]
    exact sensMatch_nil
  | cons c rest ih =>
    unfold sensAnywhere at h
    rw [Bool.or_eq_false_iff] at h
    intro t ht
    rcases List.suffix_cons_iff.mp ht with he | hs
    · rw [he]
      cases hm : sensMatch (c :: rest) with
      | none => rfl
      | some k =>
        have h1 := h.1
        rw [hm] at h1
        simp at h1
    · exact ih h.2 t hs

/-- C10: the sensitive-term stripper rewrites every case-insensitive
occurrence of a sensitive term, including occurrences inside longer
words — concretely, `"Pinterest"` becomes
`"[REDACTED_SENSITIVE]terest"` — and its output contains no remaining
case-insensitive occurrence of any term at any position (no suffix of
the output matches a term at its head). -/
theorem claim_C10 :
    stripSensitive "Pinterest" = "[REDACTED_SENSITIVE]terest" ∧
      ∀ (s : String) (t : List Char), t <:+ (stripSensitive s).data →
        sensMatch t = none := by
  constructor
  · decide
  · intro s t ht
    unfold stripSensitive at ht
    by_cases hf : sensAnywhere s.data = true
    · rw [if_pos hf] at ht
      exact subAll_clean_self sensMatch sensTok ("REDACTED_SENSITIVE]".data) rfl
        sensMatch_nil sens_pos sensTok_kills_sens
        (fun w d z z' y h _ => sens_B w z' (d :: z) y h) s.data.length s.data le_rfl t ht
    · rw [if_neg hf] at ht
      exact sensAnywhere_false_clean s.data (by simpa using hf) t ht

/-- C10 (witness): the no-remaining-occurrence property evaluated on the
stripped `"Pinterest"`. -/
theorem claim_C10_witness :
    sensMatch ((stripSensitive "Pinterest").data) = none :=
  claim_C10.2 "Pinterest" _ (List.suffix_refl _)

/-- C6: in every reachable chat history, every stored turn of role
`"bot"` has text starting with `"[SIMULATION]"` or
`"[DEFENDER MODE]"`: the initial greeting carries the marker, the user
turn of a send round has a different role, and the stored bot reply is
re-prefixed by `enforceMarker` whenever the raw reply lacks a marker. -/
theorem claim_C6 (h : List Turn) (hr : Reachable h) : BotMarked h := by
  induction hr with
  | init ts =>
    intro t ht _
    rw [List.mem_singleton.mp ht]
    left
    show startsWithL "[SIMULATION]" greetingText = true
    decide
  | clear _ ih =>
    intro t ht _
    simp at ht
  | send u ai ts1 ts2 _ ih =>
    intro t ht hrole
    rcases List.mem_append.mp ht with hmem | hmem
    · exact ih t hmem hrole
    · rcases List.mem_cons.mp hmem with he | hmem2
      · rw [he] at hrole
        have hub : ("user" : String) = "bot" := hrole
        exact absurd hub (by decide)
      · rcases List.mem_cons.mp hmem2 with he2 | h3
        · rw [he2]
          show startsWithL "[SIMULATION]" (enforceMarker ai) = true ∨
            startsWithL "[DEFENDER MODE]" (enforceMarker ai) = true
          unfold enforceMarker
          by_cases hm : (startsWithL "[SIMULATION]" ai ||
              startsWithL "[DEFENDER MODE]" ai) = true
          · rw [if_pos hm]
            rw [Bool.or_eq_true] at hm
            exact hm
          · rw [if_neg hm]
            left
            show (afterLit ("[SIMULATION]").data (("[SIMULATION] " ++ ai)).data).isSome = true
            rw [String.data_append,
              show ("[SIMULATION] ").data = ("[SIMULATION]").data ++ [' '] from rfl,
              List.append_assoc, afterLit_self_append]
            rfl
        · simp at h3

/-- C6 (witness): the invariant holds at the initial state. -/
theorem claim_C6_witness : BotMarked [⟨"bot", greetingText, "t0"⟩] :=
  claim_C6 _ (Reachable.init "t0")

/-- C7: for every `n` and non-empty pool, and every injective draw of
positions (the abstraction of `random.sample`, whose precondition
`0 ≤ k ≤ len(pool)` is met because the source first clamps
`n = min(n, len(pool))`), `build_few_shots` returns exactly
`min n pool.length` examples taken at pairwise-distinct positions of
the pool, joined with a blank-line separator; it is a total function. -/
theorem claim_C7 (pool : List String) (n : Nat)
    (f : Fin (min n pool.length) → Fin pool.length)
    (hpool : pool ≠ []) (hf : Function.Injective f) :
    ∃ idxs : List (Fin pool.length), idxs.Nodup ∧ idxs.length = min n pool.length ∧
      build_few_shots pool n f = String.intercalate "\n\n" (idxs.map pool.get) := by
  refine ⟨(List.finRange (min n pool.length)).map f, ?_, ?_, ?_⟩
  · exact (List.nodup_finRange _).map hf
  · simp
  · unfold build_few_shots pySample
    rw [List.map_map]
    rfl

/-- C7 (witness): a concrete draw with `n = 5` from a two-element pool
yields two distinct examples. -/
theorem claim_C7_witness :
    (["aaa", "bbb"] : List String) ≠ [] ∧
      ∃ idxs : List (Fin (["aaa", "bbb"] : List String).length), idxs.Nodup ∧
        idxs.length = min 5 (["aaa", "bbb"] : List String).length ∧
        build_few_shots ["aaa", "bbb"] 5 (fun i => ⟨i.val, by omega⟩) =
          String.intercalate "\n\n" (idxs.map (["aaa", "bbb"] : List String).get) :=
  ⟨by decide, claim_C7 ["aaa", "bbb"] 5 (fun i => ⟨i.val, by omega⟩) (by decide)
    (fun a b hab => Fin.ext (congrArg Fin.val hab))⟩

set_option maxRecDepth 8000 in
/-- C9: `build_prompt` selects the attacker persona exactly when its
`mode` argument is the literal `"Catphisher"`.  Every other mode —
including the spec's name `"Attacker"` — produces the very prompt that
`"Defender"` produces, and that prompt differs from the Catphisher one
(their persona blocks have different lengths).  The function accepts
every mode string (it is total, no input is rejected). -/
theorem claim_C9 (mode um : String) (pool : List String) (fsc : Nat)
    (f : Fin (min fsc pool.length) → Fin pool.length) (hm : mode ≠ "Catphisher") :
    build_prompt mode um pool fsc f = build_prompt "Defender" um pool fsc f ∧
      build_prompt "Catphisher" um pool fsc f ≠ build_prompt mode um pool fsc f := by
  constructor
  · unfold build_prompt
    rw [if_neg hm, if_neg (by decide : ¬("Defender" : String) = "Catphisher")]
  · intro he
    have hlen := congrArg String.length he
    unfold build_prompt at hlen
    rw [if_pos rfl, if_neg hm] at hlen
    simp only [String.length_append] at hlen
    have hne : personaAttacker.length ≠ personaDefender.length := by decide
    omega

/-- C9 (witness): at `mode = "Attacker"` with a concrete pool and draw,
the prompt equals the Defender prompt and differs from the Catphisher
prompt. -/
theorem claim_C9_witness :
    build_prompt "Attacker" "hi" ["ex one"] 1 (fun i => ⟨i.val, by omega⟩) =
        build_prompt "Defender" "hi" ["ex one"] 1 (fun i => ⟨i.val, by omega⟩) ∧
      build_prompt "Catphisher" "hi" ["ex one"] 1 (fun i => ⟨i.val, by omega⟩) ≠
        build_prompt "Attacker" "hi" ["ex one"] 1 (fun i => ⟨i.val, by omega⟩) :=
  claim_C9 "Attacker" "hi" ["ex one"] 1 (fun i => ⟨i.val, by omega⟩) (by decide)

theorem pySanitizeVal_str (s : String) : pySanitizeVal (.str s) = .ok (sanitize_text s) := by
  unfold pySanitizeVal
  by_cases hs : pyTruthy (PyVal.str s) = true
  · rw [if_pos hs]
  · rw [if_neg hs]
    have h0 : s = "" := by
      by_contra hne
      exact hs (by simp [pyTruthy, hne])
    rw [h0]
    rfl

theorem pySanitizeVal_falsy (v : PyVal) (hf : pyTruthy v = false) :
    pySanitizeVal v = .ok "" := by
  unfold pySanitizeVal
  rw [if_neg (by simp [hf])]

/-- On string-or-falsy values `sanitize_text` does not raise: strings
sanitize, falsy values short-circuit to `""`. -/
theorem pySanitizeVal_good (v : PyVal) (h : strOrFalsy v = true) :
    pySanitizeVal v = .ok (sanitizeOrEmpty v) := by
  cases v with
  | str s => exact pySanitizeVal_str s
  | int n => exact pySanitizeVal_falsy _ (by simpa [strOrFalsy] using h)
  | bool b => exact pySanitizeVal_falsy _ (by simpa [strOrFalsy] using h)
  | none => exact pySanitizeVal_falsy _ (by simpa [strOrFalsy] using h)
  | list l => exact pySanitizeVal_falsy _ (by simpa [strOrFalsy] using h)
  | dict d => exact pySanitizeVal_falsy _ (by simpa [strOrFalsy] using h)

/-- On good turns `renderTurn` produces the rendered line of
`renderTurnSpec`. -/
theorem renderTurn_good (t : PyVal) (h : goodTurn t = true) :
    renderTurn t = .ok (renderTurnSpec t) := by
  cases t with
  | dict d =>
    unfold goodTurn at h
    rw [Bool.and_eq_true] at h
    obtain ⟨h1, h2⟩ := h
    cases hsp : pyGetD d "speaker" (.str "scammer") with
    | str s2 =>
      simp only [renderTurn, renderTurnSpec]
      rw [pySanitizeVal_good (pyTextOf d) h2, hsp]
      rfl
    | int n => rw [hsp] at h1; simp at h1
    | bool b => rw [hsp] at h1; simp at h1
    | none => rw [hsp] at h1; simp at h1
    | list l => rw [hsp] at h1; simp at h1
    | dict d2 => rw [hsp] at h1; simp at h1
  | list l =>
    cases l with
    | nil => exact absurd h (by simp [goodTurn])
    | cons a l2 =>
      cases l2 with
      | nil => exact absurd h (by simp [goodTurn])
      | cons b l3 =>
        unfold goodTurn at h
        rw [Bool.and_eq_true] at h
        obtain ⟨h1, h2⟩ := h
        cases a with
        | str s2 =>
          simp only [renderTurn, renderTurnSpec]
          rw [pySanitizeVal_good b h2]
          rfl
        | int n => simp at h1
        | bool b2 => simp at h1
        | none => simp at h1
        | list l4 => simp at h1
        | dict d2 => simp at h1
  | str s => rfl
  | int n => rfl
  | bool b => rfl
  | none => rfl

theorem mapM_ok_of (L : List PyVal)
    (h : ∀ t ∈ L, renderTurn t = Except.ok (renderTurnSpec t)) :
    L.mapM renderTurn = .ok (L.map renderTurnSpec) := by
  induction L with
  | nil => rfl
  | cons t L ih =>
    rw [List.mapM_cons, h t (List.mem_cons_self t L),
      ih fun t2 ht2 => h t2 (List.mem_cons_of_mem t ht2)]
    rfl

theorem make_example_rest (rec : List (String × PyVal))
    (e : make_example_from_record rec =
      (match pyLookup rec "text" with
       | some v =>
         match pySanitizeVal v with
         | .error e2 => .error e2
         | .ok s => .ok (truncate400 s)
       | Option.none =>
         match pyLookup rec "message" with
         | some v =>
           match pySanitizeVal v with
           | .error e2 => .error e2
           | .ok s => .ok (truncate400 s)
         | Option.none => .ok (truncate400 (sanitize_text (jsonDumps (.dict rec))))))
    (hgood : (match pyLookup rec "text" with
       | some v => strOrFalsy v
       | Option.none =>
         match pyLookup rec "message" with
         | some v => strOrFalsy v
         | Option.none => true) = true) :
    ∃ s, make_example_from_record rec = .ok s := by
  cases ht : pyLookup rec "text" with
  | some v =>
    rw [ht] at e hgood
    have hg : strOrFalsy v = true := hgood
    have e2 : make_example_from_record rec =
        (match pySanitizeVal v with
         | Except.error e2 => Except.error e2
         | Except.ok s => Except.ok (truncate400 s)) := e
    rw [pySanitizeVal_good v hg] at e2
    exact ⟨truncate400 (sanitizeOrEmpty v), e2⟩
  | none =>
    rw [ht] at e hgood
    cases hm : pyLookup rec "message" with
    | some v =>
      rw [hm] at e hgood
      have hg : strOrFalsy v = true := hgood
      have e2 : make_example_from_record rec =
          (match pySanitizeVal v with
           | Except.error e2 => Except.error e2
           | Except.ok s => Except.ok (truncate400 s)) := e
      rw [pySanitizeVal_good v hg] at e2
      exact ⟨truncate400 (sanitizeOrEmpty v), e2⟩
    | none =>
      rw [hm] at e
      exact ⟨truncate400 (sanitize_text (jsonDumps (.dict rec))), e⟩

/-- C2 counterexample: a record whose `dialogue` list contains an empty
list makes `make_example_from_record` raise `IndexError` at `t[0]`, so the
function is not total. -/
theorem claim_C2_counterexample :
    make_example_from_record [("dialogue", PyVal.list [PyVal.list []])] =
      Except.error PyErr.indexError := rfl

/-- C2 (amended): `make_example_from_record` does not raise on any record
whose dialogue turns are well-formed (sequence turns have at least two
entries, speakers are strings, texts are strings or falsy) and whose
`text`/`message` values, when consulted, are strings or falsy; on every
such record it returns a string.  (The unamended totality claim is refuted
by `claim_C2_counterexample`.) -/
theorem claim_C2 (rec : List (String × PyVal)) (h : goodRecord rec = true) :
    ∃ s, make_example_from_record rec = Except.ok s := by
  unfold goodRecord at h
  cases hd : pyLookup rec "dialogue" with
  | some v =>
    cases v with
    | list dlg =>
      rw [hd] at h
      have hall : ∀ t ∈ dlg.take 6, renderTurn t = Except.ok (renderTurnSpec t) :=
        fun t ht => renderTurn_good t (List.all_eq_true.mp h t ht)
      have e : make_example_from_record rec =
          (match (dlg.take 6).mapM renderTurn with
           | Except.error e => Except.error e
           | Except.ok turns => Except.ok (String.intercalate "\n" turns)) := by
        unfold make_example_from_record
        rw [hd]
      rw [mapM_ok_of _ hall] at e
      exact ⟨String.intercalate "\n" ((dlg.take 6).map renderTurnSpec), e⟩
    | str s1 =>
      rw [hd] at h
      exact make_example_rest rec (by unfold make_example_from_record; rw [hd]) h
    | int n =>
      rw [hd] at h
      exact make_example_rest rec (by unfold make_example_from_record; rw [hd]) h
    | bool b =>
      rw [hd] at h
      exact make_example_rest rec (by unfold make_example_from_record; rw [hd]) h
    | none =>
      rw [hd] at h
      exact make_example_rest rec (by unfold make_example_from_record; rw [hd]) h
    | dict d2 =>
      rw [hd] at h
      exact make_example_rest rec (by unfold make_example_from_record; rw [hd]) h
  | none =>
    rw [hd] at h
    exact make_example_rest rec (by unfold make_example_from_record; rw [hd]) h

/-- C2 witness: a concrete good record on which the amended theorem
applies. -/
theorem claim_C2_witness :
    goodRecord [("text", PyVal.str "hello world")] = true ∧
      ∃ s, make_example_from_record [("text", PyVal.str "hello world")] =
        Except.ok s :=
  ⟨by decide, claim_C2 _ (by decide)⟩

/-- C8 counterexample: speakers are `str.capitalize`-cased, not
title-cased — `"mary ann"` renders as `"Mary ann"`, while title-casing
gives `"Mary Ann"`. -/
theorem claim_C8_counterexample :
    make_example_from_record
        [("dialogue", PyVal.list [PyVal.dict
          [("speaker", PyVal.str "mary ann"), ("text", PyVal.str "hi")]])] =
      Except.ok "Mary ann: hi" ∧
    "Mary ann: hi" ≠ titleCaseSpec "mary ann" ++ ": " ++ sanitize_text "hi" := by
  constructor
  · rfl
  · decide

/-- C8 (amended): a dialogue-form record renders at most the first 6 turns
as `"Speaker: text"` lines with the speaker name capitalize-cased (first
character only — not title-cased, see `claim_C8_counterexample`) and each
turn's text passed through the sanitizer; in particular the scammer record
of the claim yields `"Scammer: [REDACTED_EMAIL]"`. -/
theorem claim_C8 :
    (∀ (rec : List (String × PyVal)) (dlg : List PyVal),
        pyLookup rec "dialogue" = some (PyVal.list dlg) →
        (dlg.take 6).all goodTurn = true →
        make_example_from_record rec =
          Except.ok (String.intercalate "\n" ((dlg.take 6).map renderTurnSpec))) ∧
      make_example_from_record
          [("dialogue", PyVal.list [PyVal.dict
            [("speaker", PyVal.str "scammer"), ("text", PyVal.str "hi@test.com")]])] =
        Except.ok "Scammer: [REDACTED_EMAIL]" := by
  constructor
  · intro rec dlg hd hall
    have hall2 : ∀ t ∈ dlg.take 6, renderTurn t = Except.ok (renderTurnSpec t) :=
      fun t ht => renderTurn_good t (List.all_eq_true.mp hall t ht)
    have e : make_example_from_record rec =
        (match (dlg.take 6).mapM renderTurn with
         | Except.error e => Except.error e
         | Except.ok turns => Except.ok (String.intercalate "\n" turns)) := by
      unfold make_example_from_record
      rw [hd]
    rw [mapM_ok_of _ hall2] at e
    exact e
  · rfl

/-- C8 witness: the general rendering equation applied to a concrete
two-entry sequence turn. -/
theorem claim_C8_witness :
    pyLookup [("dialogue", PyVal.list [PyVal.list [PyVal.str "bo", PyVal.str "hey"]])]
        "dialogue" = some (PyVal.list [PyVal.list [PyVal.str "bo", PyVal.str "hey"]]) ∧
    ([PyVal.list [PyVal.str "bo", PyVal.str "hey"]].take 6).all goodTurn = true ∧
    make_example_from_record
        [("dialogue", PyVal.list [PyVal.list [PyVal.str "bo", PyVal.str "hey"]])] =
      Except.ok (String.intercalate "\n"
        (([PyVal.list [PyVal.str "bo", PyVal.str "hey"]].take 6).map renderTurnSpec)) :=
  ⟨rfl, by decide, claim_C8.1 _ _ rfl (by decide)⟩
